import Mathlib

/-!
Verification development for `convert.py` of the dictcc-stardict repository.

The Python source parses dictionary headword phrases with a pyparsing
grammar (`FieldParser._init_line_parser`), generates candidate lookup
strings (`FieldParser.get_possible_source_words`), expands abbreviations
through per-language synonym tables
(`FieldParser._init_replace_abbreviations`), and aggregates translations
per key (`main`).

We embed those functions shallowly:

* Python `set` values are modelled as duplicate-free lists; insertion
  into a set keeps the first element inserted for a given key
  (`set.add` of an equal element is a no-op), which we model with
  `addStr` / `addSW`.  Where the Python set iteration order is
  unspecified (hash order), functions take the list order as given.
* `parse_string` is called without `parse_all=True` in
  `FieldParser.parse_tokens`, so parsing never raises: pyparsing consumes
  the longest parsable prefix and returns its tokens, leaving the rest of
  the input unconsumed.  We model this as a total function returning the
  token list together with the unconsumed remainder.
* pyparsing's `WordStart()`/`WordEnd()` use the ASCII `printables`
  character class (codepoints 33..126); whitespace skipping uses
  pyparsing's default whitespace characters.
-/

namespace Convert

/-- pyparsing's default whitespace characters (space, tab, newline),
skipped before tokens by the phrase grammar. -/
def pyWhite (c : Char) : Bool := c == ' ' || c == '\t' || c == '\n'

/-- The opening curly bracket character. -/
def lcurly : Char := Char.ofNat 123

/-- The closing curly bracket character. -/
def rcurly : Char := Char.ofNat 125

/-- The four opening bracket characters of the phrase grammar. -/
def isOpenerChar (c : Char) : Bool := c == '(' || c == '[' || c == lcurly || c == '<'

/-- Characters allowed in a `Word` token: `pp.CharsNotIn(" ([{<")`. -/
def isWordChar (c : Char) : Bool := !(c == ' ' || isOpenerChar c)

/-- Token produced by `FieldParser.parse_tokens`: a plain word or one of the
four bracket kinds, carrying the raw inner text of the bracket span. -/
inductive Token where
  | word : String → Token
  | round : String → Token
  | square : String → Token
  | curly : String → Token
  | angle : String → Token
deriving Repr, DecidableEq

mutual

/-- PEG-style bracket parsing, mirroring the pyparsing `Forward` grammar
`round << '(' + ZeroOrMore(round | CharsNotIn(")", exact=1)) + ')'`
(symmetric for the other three kinds).  Leading default whitespace is
skipped before the opening bracket (pyparsing `preParse`).  Returns the
verbatim inner span and the rest of the input after the closing bracket,
or `none` if no balanced bracket starts here.  `fuel` bounds the
recursion depth; the top-level wrapper supplies enough fuel. -/
def parseBracketF (op cl : Char) : Nat → List Char → Option (List Char × List Char)
  | 0, _ => none
  | fuel + 1, cs =>
    let cs1 := cs.dropWhile pyWhite
    match cs1 with
    | [] => none
    | c :: rest => if c = op then parseInnerF op cl fuel rest else none

/-- Content loop inside a bracket: try a nested same-kind bracket first
(ordered choice), otherwise consume a single non-closing character;
stop at the matching closing bracket.  Returns (inner content, rest). -/
def parseInnerF (op cl : Char) : Nat → List Char → Option (List Char × List Char)
  | 0, _ => none
  | fuel + 1, cs =>
    match parseBracketF op cl fuel cs with
    | some (_, rest) =>
      let spanLen := cs.length - rest.length
      match parseInnerF op cl fuel rest with
      | some (content, rest2) => some (cs.take spanLen ++ content, rest2)
      | none => none
    | none =>
      match cs with
      | [] => none
      | c :: rest =>
        if c = cl then some ([], rest)
        else
          match parseInnerF op cl fuel rest with
          | some (content, rest2) => some (c :: content, rest2)
          | none => none
end

/-- Closing bracket for an opening bracket character. -/
def bracketClose (c : Char) : Char :=
  if c = '(' then ')' else if c = '[' then ']' else if c = lcurly then rcurly else '>'

/-- Token constructor for an opening bracket character. -/
def bracketMk (c : Char) : String → Token :=
  if c = '(' then .round else if c = '[' then .square else if c = lcurly then .curly else .angle

/-- The phrase grammar `ZeroOrMore(word | round | square | curly | angle
| Suppress(Word(" ")))` run as pyparsing's `parse_string` without
`parse_all`: it consumes the longest parsable prefix and never fails.
Returns the tokens of that prefix and the unconsumed remainder. -/
def parseToksF : Nat → List Char → List Token × List Char
  | 0, cs => ([], cs)
  | fuel + 1, cs =>
    let cs1 := cs.dropWhile pyWhite
    match cs1 with
    | [] => ([], [])
    | c :: _ =>
      if isWordChar c then
        let w := cs1.takeWhile isWordChar
        let p := parseToksF fuel (cs1.dropWhile isWordChar)
        (Token.word (String.mk w) :: p.1, p.2)
      else if isOpenerChar c then
        match parseBracketF c (bracketClose c) (2 * cs1.length + 4) cs1 with
        | some (content, rest) =>
          let p := parseToksF fuel rest
          (bracketMk c (String.mk content) :: p.1, p.2)
        | none => ([], cs1)
      else ([], cs1)

/-- `FieldParser.parse_tokens`: total, returns the parsed tokens and the
silently unconsumed remainder (empty when the whole phrase parsed). -/
def parse_tokens (s : String) : List Token × String :=
  let p := parseToksF (s.length + 1) s.toList
  (p.1, String.mk p.2)

/-- Insert a string into a set-as-list (Python `set` keeps the first
inserted element; re-adding is a no-op). -/
def addStr (l : List String) (s : String) : List String :=
  if l.contains s then l else l ++ [s]

/-- Union of set-as-lists, inserting the elements of `b` in order. -/
def unionStr (a b : List String) : List String := b.foldl addStr a

/-- Deduplicate keeping first occurrences. -/
def dedupStr (l : List String) : List String := unionStr [] l

/-- The whitespace set of Python `str.split()` with no arguments
(`str.isspace`): ASCII 9-13 (tab, LF, VT, FF, CR) and 28-32 (the file /
group / record / unit separators and the space), NEL (133), NBSP (160),
and the Unicode Zs/Zl/Zp space characters.  This is wider than
pyparsing's skip set `pyWhite`. -/
def pySpace (c : Char) : Bool :=
  let n := c.toNat
  (9 ≤ n && n ≤ 13) || (28 ≤ n && n ≤ 32) || n == 133 || n == 160 ||
    n == 5760 || (8192 ≤ n && n ≤ 8202) || n == 8232 || n == 8233 ||
    n == 8239 || n == 8287 || n == 12288

/-- Helper for `splitWs`: `cur` is the reversed current run of
characters outside `pySpace`. -/
def splitWsAux (cur : List Char) : List Char → List (List Char)
  | [] => if cur.isEmpty then [] else [cur.reverse]
  | c :: rest =>
    if pySpace c then
      if cur.isEmpty then splitWsAux [] rest
      else cur.reverse :: splitWsAux [] rest
    else splitWsAux (c :: cur) rest

/-- Whitespace-split of a character list, mirroring Python `str.split()`:
maximal runs of non-whitespace, empty runs dropped. -/
def splitWs (cs : List Char) : List (List Char) := splitWsAux [] cs

/-- Tail of `" ".join(...)`: prepend one space before each further
piece. -/
def joinSpTail : List (List Char) → List Char
  | [] => []
  | p :: ps => ' ' :: (p ++ joinSpTail ps)

/-- `" ".join(s.split())`: collapse whitespace runs, trim the ends. -/
def normalizeWs (s : String) : String :=
  match splitWs s.toList with
  | [] => ""
  | p :: ps => String.mk (p ++ joinSpTail ps)

/-- The optional-abbreviation base set for English
(`optional_abbreviations["en"]["any"]["start_or_end"]`). -/
def enBaseAbbrevs : List String := ["sth.", "sb.", "sb.'s", "sb./sth."]

/-- The optional-abbreviation base set for German. -/
def deBaseAbbrevs : List String :=
  ["jd.", "jds.", "jdm.", "jdn.", "etw.", "jd./etw.", "jds./etw.", "jdm./etw.", "jdn./etw."]

/-- Abbreviations optional at the start of a phrase, after merging the
class-specific additions and the `start_or_end` set (English verbs add
the infinitive marker `to`). -/
def startOptional (lang : String) (word_class : Option String) : List String :=
  if lang = "en" then
    (if word_class = some "verb" then "to" :: enBaseAbbrevs else enBaseAbbrevs)
  else if lang = "de" then deBaseAbbrevs
  else []

/-- Abbreviations optional at the end of a phrase. -/
def endOptional (lang : String) : List String :=
  if lang = "en" then enBaseAbbrevs else if lang = "de" then deBaseAbbrevs else []

/-- Truthiness of `possible_abbreviations` in
`get_possible_source_words`: nonempty exactly for `en` and `de`. -/
def hasOptionalTables (lang : String) : Bool := lang == "en" || lang == "de"

/-- Does the token list contain a `Word` token?  (`index ==
last_word_index` for a word token is equivalent to: no `Word` occurs
after it.) -/
def hasWordTok (ts : List Token) : Bool :=
  ts.any fun t => match t with | .word _ => true | _ => false

/-- Square/curly/angle tokens fall through the token walk's `if`
chain without touching the state. -/
def ignoredTok (t : Token) : Bool :=
  match t with
  | .word _ => false
  | .round _ => false
  | _ => true

/-- Append a word to every partial string:
`{f"{word} {token.value}" for word in source_words}`. -/
def appendWordAll (ws : List String) (w : String) : List String :=
  ws.map fun x => x ++ " " ++ w

/-- State of the token walk: the growing partial-string set
(`source_words`, `none` before anything was consumed), the side
accumulator `finished_words`, and `already_encountered_word`. -/
structure GenSt where
  src : Option (List String)
  finished : List String
  already : Bool
deriving Repr

/-- One step of the token walk of `get_possible_source_words`
(lines 163-195 of convert.py).  `wordAfter` tells whether a `Word`
token occurs later in the phrase (so that the current word token is the
last word iff `wordAfter = false`). -/
def genStep (hasAbbr : Bool) (startS endS : List String) (st : GenSt) (t : Token)
    (wordAfter : Bool) : GenSt :=
  match t with
  | .word w =>
    if hasAbbr && !wordAfter && endS.contains w then
      match st.src with
      | none => ⟨some [w], st.finished, true⟩
      | some ws => ⟨some (appendWordAll ws w), unionStr st.finished ws, true⟩
    else if hasAbbr && !st.already && startS.contains w then
      match st.src with
      | none => ⟨some [w, ""], st.finished, true⟩
      | some ws => ⟨some (unionStr (dedupStr (appendWordAll ws w)) [w, ""]), st.finished, true⟩
    else
      match st.src with
      | none => ⟨some [w], st.finished, true⟩
      | some ws => ⟨some (appendWordAll ws w), st.finished, true⟩
  | .round v =>
    match st.src with
    | none => ⟨some (addStr [v] ""), st.finished, st.already⟩
    | some ws => ⟨some (unionStr ws (appendWordAll ws v)), st.finished, st.already⟩
  | _ => st

/-- The token walk. -/
def genWalk (hasAbbr : Bool) (startS endS : List String) : GenSt → List Token → GenSt
  | st, [] => st
  | st, t :: rest =>
    genWalk hasAbbr startS endS (genStep hasAbbr startS endS st t (hasWordTok rest)) rest

/-- The variant-generator stage: walk the tokens, union in
`finished_words`, whitespace-normalize, drop empties, deduplicate
(line 201 of convert.py). -/
def candidatesFromTokens (ts : List Token) (word_class : Option String) (lang : String) :
    List String :=
  let st := genWalk (hasOptionalTables lang) (startOptional lang word_class)
    (endOptional lang) ⟨none, [], false⟩ ts
  dedupStr (((unionStr (st.src.getD []) st.finished).map normalizeWs).filter fun s => s ≠ "")

/-- Candidate strings of a phrase before abbreviation expansion. -/
def source_word_candidates (field : String) (word_class : Option String) (lang : String) :
    List String :=
  candidatesFromTokens (parse_tokens field).1 word_class lang

/-- `SourceWord` of convert.py: hash and equality use only `word`. -/
structure SourceWord where
  word : String
  has_replacements : Bool
deriving Repr, DecidableEq

/-- pyparsing's `printables` character class: ASCII codepoints 33..126.
`WordStart()`/`WordEnd()` with default `wordChars` test membership here. -/
def ppPrintable (c : Char) : Bool := 33 ≤ c.toNat && c.toNat ≤ 126

/-- The abbreviation-synonym tables (`self.abbreviations_synonyms`),
in source order. -/
def abbreviations_synonyms (lang : String) : List (String × List String) :=
  if lang = "en" then
    [("sth.", ["something"]), ("sb.", ["somebody"]), ("sb.'s", ["somebody's"]),
     ("sb./sth.", ["somebody", "something", "somebody/something"])]
  else if lang = "de" then
    [("jd.", ["jemand"]), ("jds.", ["jemandes"]), ("jdm.", ["jemandem"]),
     ("jdn.", ["jemanden"]), ("etw.", ["etwas"]),
     ("jd./etw.", ["jemand", "etwas", "jemand/etwas"]),
     ("jds./etw.", ["jemandes", "etwas", "jemandes/etwas"]),
     ("jdm./etw.", ["jemandem", "etwas", "jemandem/etwas"]),
     ("jdn./etw.", ["jemanden", "etwas", "jemanden/etwas"])]
  else []

/-- Languages with a `find_abbreviations_exprs` entry. -/
def hasSynonymTable (lang : String) : Bool := lang == "en" || lang == "de"

/-- pyparsing `WordStart()` before a literal starting with `first` when
the previous character is `prev` (`none` at position 0): matches at
position 0, else requires the previous character outside `printables`
and the current one inside. -/
def wordStartOk (prev : Option Char) (first : Char) : Bool :=
  match prev with
  | none => true
  | some p => !ppPrintable p && ppPrintable first

/-- pyparsing `WordEnd()` after a literal ending with `last` when the
input continues with `rest`: matches at end of input, else requires the
next character outside `printables` and the previous one inside. -/
def wordEndOk (last : Char) (rest : List Char) : Bool :=
  match rest with
  | [] => true
  | d :: _ => !ppPrintable d && ppPrintable last

/-- Does `WordStart() + Literal(a) + WordEnd()` match at the current
position (previous character `prev`, remaining input `cs`)? -/
def matchAbbr (prev : Option Char) (cs : List Char) (a : String) : Bool :=
  match a.toList with
  | [] => false
  | x :: xs =>
    (x :: xs).isPrefixOf cs && wordStartOk prev x &&
      wordEndOk ((x :: xs).getLastD x) (cs.drop (x :: xs).length)

/-- Ordered choice over the table: the first abbreviation (in dict
insertion order) that matches at this position. -/
def tryMatchAt (table : List (String × List String)) (prev : Option Char) (cs : List Char) :
    Option (String × List String) :=
  table.find? fun p => matchAbbr prev cs p.1

/-- A fragment of the abbreviation split: a single plain character
(`CharsNotIn("", exact=1)`) or a matched abbreviation literal. -/
inductive Frag where
  | plain : Char → Frag
  | abbr : String → Frag
deriving Repr, DecidableEq

/-- Fuel-indexed splitter loop (structural recursion on `fuel` so that
the kernel can evaluate it); `fuel ≥ cs.length` is always enough since
every step consumes at least one character. -/
def scanFragsF (table : List (String × List String)) : Nat → Option Char → List Char → List Frag
  | 0, _, _ => []
  | _, _, [] => []
  | fuel + 1, prev, c :: rest =>
    match tryMatchAt table prev (c :: rest) with
    | some (a, _) =>
      Frag.abbr a ::
        scanFragsF table fuel (some (a.toList.getLastD c)) (rest.drop (a.toList.length - 1))
    | none => Frag.plain c :: scanFragsF table fuel (some c) rest

/-- The splitter `ZeroOrMore(abbreviation | CharsNotIn("", exact=1))`
with whitespace skipping suppressed: scan left to right, taking the
first matching abbreviation at each position, else one plain char. -/
def scanFrags (table : List (String × List String)) (prev : Option Char) (cs : List Char) :
    List Frag :=
  scanFragsF table cs.length prev cs

/-- Synonyms of an abbreviation literal
(`replacements_for_lang[sub_word.value]`). -/
def synonymsOf (table : List (String × List String)) (a : String) : List String :=
  match table.find? fun p => p.1 = a with
  | some p => p.2
  | none => []

/-- Insert a `SourceWord` into a set-as-list: `SourceWord` equality and
hash use only `word`, and `set.add` keeps the first element. -/
def addSW (l : List SourceWord) (x : SourceWord) : List SourceWord :=
  if l.any fun y => y.word = x.word then l else l ++ [x]

/-- Rebuild a set of `SourceWord`s (used for `set(build_words)`),
keeping first occurrences per word. -/
def dedupSW (l : List SourceWord) : List SourceWord := l.foldl addSW []

/-- `current_replacements`: each synonym tagged as a replacement,
followed by the literal itself untagged. -/
def repsFor (a : String) (syns : List String) : List (String × Bool) :=
  (syns.map fun s => (s, true)) ++ [(a, false)]

/-- One fold step of the `build_words` loop over the split fragments
(lines 211-229 of convert.py). -/
def buildStep (table : List (String × List String)) (bw : Option (List SourceWord))
    (f : Frag) : Option (List SourceWord) :=
  match f with
  | .plain c =>
    match bw with
    | none => some [⟨String.singleton c, false⟩]
    | some l => some (l.map fun x => ⟨x.word.push c, x.has_replacements⟩)
  | .abbr a =>
    let reps := repsFor a (synonymsOf table a)
    match bw with
    | none => some (reps.foldl (fun acc rp => addSW acc ⟨rp.1, rp.2⟩) [])
    | some l =>
      some ((dedupSW l).foldl
        (fun acc x => reps.foldl
          (fun acc2 rp => addSW acc2 ⟨x.word ++ rp.1, x.has_replacements || rp.2⟩) acc) [])

/-- The full `build_words` fold. -/
def buildWords (table : List (String × List String)) (bw : Option (List SourceWord))
    (frags : List Frag) : Option (List SourceWord) :=
  frags.foldl (buildStep table) bw

/-- Expansion of a single candidate string: split it, then build every
combination of literal-kept / synonym-substituted choices. -/
def expandWord (lang : String) (w : String) : List SourceWord :=
  match buildWords (abbreviations_synonyms lang) none
      (scanFrags (abbreviations_synonyms lang) none w.toList) with
  | some l => l
  | none => []

/-- The `return_words` accumulation over the candidate set, in the given
enumeration order (Python iterates the `source_words` set in hash
order); first insertion wins for a given word string. -/
def expandStage (lang : String) (ws : List String) : List SourceWord :=
  ws.foldl (fun acc w => (expandWord lang w).foldl addSW acc) []

/-- Renormalize every built word, drop empties, deduplicate: the
in-place normalization loop plus the final set comprehension
(lines 234-239 of convert.py). -/
def finalizeWords (rw : List SourceWord) : List SourceWord :=
  dedupSW ((rw.map fun x => ⟨normalizeWs x.word, x.has_replacements⟩).filter
    fun x => x.word ≠ "")

/-- `get_possible_source_words` from a token list (default flags:
`make_abbreviations_optional = replace_abbreviations = True`). -/
def get_possible_from_tokens (ts : List Token) (word_class : Option String) (lang : String) :
    List SourceWord :=
  let sw := candidatesFromTokens ts word_class lang
  if hasSynonymTable lang then finalizeWords (expandStage lang sw)
  else dedupSW ((sw.map fun w => (⟨w, false⟩ : SourceWord)).filter fun x => x.word ≠ "")

/-- `FieldParser.get_possible_source_words` on a phrase string. -/
def get_possible_source_words (field : String) (word_class : Option String) (lang : String) :
    List SourceWord :=
  get_possible_from_tokens (parse_tokens field).1 word_class lang

/-- The candidate strings of the full pipeline (`as_str=True`). -/
def possibleSourceStrings (field : String) (word_class : Option String) (lang : String) :
    List String :=
  (get_possible_source_words field word_class lang).map (·.word)

/-! ### The aggregator (`main`, lines 338-391 of convert.py)

A key's accumulated translations are `(word_class, translation)` pairs;
`word_class` is `None` for a line without a class field and may be the
empty string, both of which are falsy in Python. -/

/-- Python truthiness of a word-class value (`not word_class`). -/
def classFalsy : Option String → Bool
  | none => true
  | some s => s == ""

/-- One step of the `translation_to_word_class` accumulation
(lines 342-352): a new translation is appended with its class; a seen
translation keeps its class unless that class is falsy and the incoming
one is not, in which case the stored class is upgraded in place. -/
def translationClassStep (assoc : List (String × Option String))
    (p : Option String × String) : List (String × Option String) :=
  match assoc.find? fun q => q.1 = p.2 with
  | some q =>
    if classFalsy p.1 then assoc
    else if classFalsy q.2 then assoc.map fun r => if r.1 = p.2 then (r.1, p.1) else r
    else assoc
  | none => assoc ++ [(p.2, p.1)]

/-- The `translation_to_word_class` dict as an insertion-ordered
association list. -/
def translationToWordClass (translations : List (Option String × String)) :
    List (String × Option String) :=
  translations.foldl translationClassStep []

/-- Class priority (lines 354-364): `adj` 0, `verb` 1, `noun` 2,
anything else (including no class) 3. -/
def classPriority (wc : Option String) : Nat :=
  if wc = some "adj" then 0
  else if wc = some "verb" then 1
  else if wc = some "noun" then 2
  else 3

/-- Surviving `(translation, priority)` pairs of a key, in insertion
order, before sorting. -/
def prioritizedTranslations (translations : List (Option String × String)) :
    List (String × Nat) :=
  (translationToWordClass translations).map fun p => (p.1, classPriority p.2)

/-- The Python sort key `(x[1], x[0].lower(), x[0])`, as a lexicographic
triple.  Python's `str.lower()` performs full Unicode case mapping —
including multi-character results (`İ` → `i` plus combining dot) and
the context-sensitive final-sigma rule (`ΑΣ` → `ας`) — which this
development does not re-implement: the key takes the lowercasing
function `low` as a parameter, every ranking statement below is proven
for all `low`, and the program's ordering is the instance
`low = str.lower`. -/
def transKey (low : String → String) (p : String × Nat) :
    Lex (Nat × Lex (String × String)) :=
  toLex (p.2, toLex (low p.1, p.1))

/-- The sort order of `sorted(translation_to_word_class.items(), ...)`. -/
def transLE (low : String → String) (a b : String × Nat) : Prop :=
  transKey low a ≤ transKey low b

instance (low : String → String) : DecidableRel (transLE low) :=
  fun a b => inferInstanceAs (Decidable (transKey low a ≤ transKey low b))

instance (low : String → String) : IsTotal (String × Nat) (transLE low) :=
  ⟨fun a b => le_total (transKey low a) (transKey low b)⟩

instance (low : String → String) : IsTrans (String × Nat) (transLE low) :=
  ⟨fun _ _ _ h1 h2 => le_trans h1 h2⟩

/-- The ranked translation list of one key (line 366), for the
lowercasing function `low` of the sort key. -/
def per_key_merge (low : String → String)
    (translations : List (Option String × String)) : List (String × Nat) :=
  List.insertionSort (transLE low) (prioritizedTranslations translations)

/-- The canonical ordered tuple of translation strings of one key
(line 367). -/
def per_key_translations (low : String → String)
    (translations : List (Option String × String)) : List String :=
  (per_key_merge low translations).map (·.1)

/-- The canonicalization sort key of line 377:
`(x[1], -len(x[0]))` — non-substituted first, then longest. -/
def canonKey (x : String × Bool) : Lex (Nat × OrderDual Nat) :=
  toLex ((cond x.2 1 0 : Nat), OrderDual.toDual x.1.length)

/-- The order used to pick the canonical key of a meaning group. -/
def canonLE (a b : String × Bool) : Prop := canonKey a ≤ canonKey b

instance : DecidableRel canonLE :=
  fun a b => inferInstanceAs (Decidable (canonKey a ≤ canonKey b))

instance : IsTotal (String × Bool) canonLE :=
  ⟨fun a b => le_total (canonKey a) (canonKey b)⟩

instance : IsTrans (String × Bool) canonLE :=
  ⟨fun _ _ _ h1 h2 => le_trans h1 h2⟩

/-- Lines 377-379: `sorted(src_words, key=lambda x: (x[1], -len(x[0])))[0]`
picks the canonical key of a group; `src_words.remove(...)` leaves the
alternates.  Returns `none` only for an empty group (which never occurs:
groups are built nonempty). -/
def pickCanonical (group : List (String × Bool)) :
    Option ((String × Bool) × List (String × Bool)) :=
  match List.insertionSort canonLE group with
  | [] => none
  | c :: _ => some (c, group.erase c)

/-! ### Characterization helpers

Definitions used to state set-level properties of the generator: the
rendering of one inclusion/exclusion choice over the top-level round
segments, as described by the spec's cardinality property. -/

/-- The `Word` token values of a token list, in order. -/
def wordsInTokens (ts : List Token) : List String :=
  ts.filterMap fun t => match t with | .word w => some w | _ => none

/-- Number of top-level round-bracket segments. -/
def countRounds (ts : List Token) : Nat :=
  ts.countP fun t => match t with | .round _ => true | _ => false

/-- Append a piece to a growing partial string (the generator separates
pieces by one space; the initial piece starts the string). -/
def appPiece : Option String → String → String
  | none, p => p
  | some s, p => s ++ " " ++ p

/-- Modelled from the spec: the raw rendering of a phrase under one
choice vector `bs` over its round segments — words are mandatory,
a round segment is included iff its `Bool` is `true`, square/curly/angle
segments contribute nothing.  Returns `none` when nothing was rendered. -/
def renderChoice : Option String → List Token → List Bool → Option String
  | acc, [], _ => acc
  | acc, Token.word w :: ts, bs => renderChoice (some (appPiece acc w)) ts bs
  | acc, Token.round v :: ts, b :: bs =>
    renderChoice (if b then some (appPiece acc v) else some (acc.getD "")) ts bs
  | acc, Token.round _ :: ts, [] => renderChoice (some (acc.getD "")) ts []
  | acc, _ :: ts, bs => renderChoice acc ts bs

/-- All `2 ^ n` choice vectors of length `n`. -/
def allChoices : Nat → List (List Bool)
  | 0 => [[]]
  | n + 1 => (allChoices n).map (List.cons true) ++ (allChoices n).map (List.cons false)

/-- The set of partial strings denoted by the optional `source_words`
value: `none` denotes the single "unset" element, `some l` denotes the
strings of `l`. -/
def SrcSet (o : Option (List String)) (x : Option String) : Prop :=
  match o with
  | none => x = none
  | some l => ∃ s, x = some s ∧ s ∈ l

/-- All combination strings of a fragment list, folded left to right
from the accumulated prefixes `acc` (the word-level contents of the
`build_words` fold, without flags). -/
def fragRendersAux (table : List (String × List String)) (acc : List String) :
    List Frag → List String
  | [] => acc
  | Frag.plain c :: fs => fragRendersAux table (acc.map fun s => s.push c) fs
  | Frag.abbr a :: fs =>
    fragRendersAux table
      (acc.flatMap fun s => ((synonymsOf table a).map fun r => s ++ r) ++ [s ++ a]) fs

/-- The raw character content of a fragment list. -/
def joinFrags : List Frag → List Char
  | [] => []
  | Frag.plain c :: fs => c :: joinFrags fs
  | Frag.abbr a :: fs => a.toList ++ joinFrags fs

/-- Tokens equal up to the inner text of square/curly/angle segments. -/
def sameModIgnored (t t' : Token) : Bool :=
  match t, t' with
  | .word w, .word w' => w = w'
  | .round v, .round v' => v = v'
  | .square _, .square _ => true
  | .curly _, .curly _ => true
  | .angle _, .angle _ => true
  | _, _ => false

/-- Pointwise extension of `sameModIgnored` to token lists. -/
def sameModIgnoredList : List Token → List Token → Bool
  | [], [] => true
  | a :: as, b :: bs => sameModIgnored a b && sameModIgnoredList as bs
  | _, _ => false

/-! ### Set-as-list membership lemmas -/

/-- Membership in `addStr`. -/
theorem mem_addStr (l : List String) (x s : String) :
    s ∈ addStr l x ↔ s ∈ l ∨ s = x := by
  unfold addStr
  by_cases h : l.contains x = true
  · rw [if_pos h]
    have hx : x ∈ l := by simpa using h
    constructor
    · exact Or.inl
    · rintro (hs | rfl)
      · exact hs
      · exact hx
  · rw [if_neg h]
    simp

/-- Membership in `unionStr`. -/
theorem mem_unionStr (b : List String) : ∀ (a : List String) (s : String),
    s ∈ unionStr a b ↔ s ∈ a ∨ s ∈ b := by
  induction b with
  | nil => intro a s; simp [unionStr]
  | cons x xs ih =>
    intro a s
    show s ∈ unionStr (addStr a x) xs ↔ _
    rw [ih, mem_addStr]
    simp only [List.mem_cons]
    tauto

/-- Membership in `dedupStr`. -/
theorem mem_dedupStr (l : List String) (s : String) : s ∈ dedupStr l ↔ s ∈ l := by
  unfold dedupStr
  rw [mem_unionStr]
  simp

/-! ### Lemmas about whitespace splitting and normalization -/

/-- A nonempty current run guarantees a nonempty split. -/
theorem splitWsAux_ne_nil : ∀ (cs cur : List Char), cur ≠ [] → splitWsAux cur cs ≠ [] := by
  intro cs
  induction cs with
  | nil =>
    intro cur h
    simp [splitWsAux, List.isEmpty_iff, h]
  | cons c rest ih =>
    intro cur h
    by_cases hw : pySpace c
    · simp [splitWsAux, hw, List.isEmpty_iff, h]
    · simp only [splitWsAux, hw]
      exact ih (c :: cur) (by simp)

/-- Consuming a run of non-whitespace characters accumulates them. -/
theorem splitWsAux_append_nonwhite :
    ∀ (w : List Char), (∀ c ∈ w, pySpace c = false) →
      ∀ (cur rest : List Char),
        splitWsAux cur (w ++ rest) = splitWsAux (w.reverse ++ cur) rest := by
  intro w
  induction w with
  | nil => intro _ cur rest; simp
  | cons c w' ih =>
    intro h cur rest
    have hc : pySpace c = false := h c (by simp)
    have hw' : ∀ d ∈ w', pySpace d = false := fun d hd => h d (by simp [hd])
    show splitWsAux cur (c :: (w' ++ rest)) = _
    simp only [splitWsAux, hc, Bool.false_eq_true, if_false]
    rw [ih hw' (c :: cur) rest]
    congr 1
    simp

/-- Splitting a word followed by a space splits off the word. -/
theorem splitWs_word_space (w r : List Char) (hne : w ≠ [])
    (hnw : ∀ c ∈ w, pySpace c = false) :
    splitWs (w ++ ' ' :: r) = w :: splitWs r := by
  unfold splitWs
  rw [splitWsAux_append_nonwhite w hnw [] (' ' :: r)]
  have : pySpace ' ' = true := by decide
  simp [splitWsAux, this, List.isEmpty_iff, hne]

/-- Splitting a plain non-whitespace word returns it alone. -/
theorem splitWs_no_white (w : List Char) (hne : w ≠ [])
    (hnw : ∀ c ∈ w, pySpace c = false) :
    splitWs w = [w] := by
  unfold splitWs
  rw [show (w : List Char) = w ++ [] by simp, splitWsAux_append_nonwhite w hnw [] []]
  simp [splitWsAux, List.isEmpty_iff, hne]

/-- The split is empty exactly for all-whitespace input. -/
theorem splitWs_eq_nil_iff : ∀ (cs : List Char),
    splitWs cs = [] ↔ ∀ c ∈ cs, pySpace c = true := by
  intro cs
  induction cs with
  | nil => simp [splitWs, splitWsAux]
  | cons c rest ih =>
    by_cases hw : pySpace c
    · show splitWsAux [] (c :: rest) = [] ↔ _
      simp only [splitWsAux, hw, if_true, List.isEmpty_nil]
      rw [show splitWsAux [] rest = splitWs rest from rfl, ih]
      simp [hw]
    · show splitWsAux [] (c :: rest) = [] ↔ _
      simp only [splitWsAux, hw]
      constructor
      · intro h
        exact absurd h (splitWsAux_ne_nil rest [c] (by simp))
      · intro h
        exact absurd (h c (by simp)) (by simpa using hw)

/-- Every piece of a whitespace split is nonempty. -/
theorem mem_splitWsAux_ne_nil : ∀ (cs cur : List Char) (p : List Char),
    p ∈ splitWsAux cur cs → p ≠ [] := by
  intro cs
  induction cs with
  | nil =>
    intro cur p hp
    by_cases h : cur.isEmpty
    · simp [splitWsAux, h] at hp
    · simp only [splitWsAux, h, Bool.false_eq_true, if_false, List.mem_singleton] at hp
      subst hp
      simpa [List.isEmpty_iff] using h
  | cons c rest ih =>
    intro cur p hp
    by_cases hw : pySpace c
    · by_cases h : cur.isEmpty
      · simp only [splitWsAux, hw, if_true, h] at hp
        exact ih [] p hp
      · simp only [splitWsAux, hw, if_true, h, Bool.false_eq_true, if_false,
          List.mem_cons] at hp
        rcases hp with rfl | hp
        · simpa [List.isEmpty_iff] using h
        · exact ih [] p hp
    · simp only [splitWsAux, hw, Bool.false_eq_true, if_false] at hp
      exact ih (c :: cur) p hp

/-- The normalization of a string is empty exactly when the string is
all whitespace. -/
theorem normalizeWs_eq_empty_iff (s : String) :
    normalizeWs s = "" ↔ ∀ c ∈ s.toList, pySpace c = true := by
  rw [← splitWs_eq_nil_iff]
  unfold normalizeWs
  cases h : splitWs s.toList with
  | nil => simp
  | cons p ps =>
    have hp : p ≠ [] := mem_splitWsAux_ne_nil s.toList [] p (by rw [show splitWsAux [] s.toList = splitWs s.toList from rfl, h]; simp)
    constructor
    · intro hmk
      dsimp only at hmk
      have h2 := congrArg String.data hmk
      simp at h2
      exact absurd h2.1 hp
    · intro hh
      simp at hh

/-! ### Basic lemmas about the splitter -/

/-- The fuel of `scanFragsF` is irrelevant once it covers the input
length: every step consumes at least one character. -/
theorem scanFragsF_fuel_eq (table : List (String × List String)) :
    ∀ (fuel fuel' : Nat) (prev : Option Char) (cs : List Char),
      cs.length ≤ fuel → cs.length ≤ fuel' →
      scanFragsF table fuel prev cs = scanFragsF table fuel' prev cs := by
  intro fuel
  induction fuel with
  | zero =>
    intro fuel' prev cs h1 _
    have hcs : cs = [] := List.eq_nil_of_length_eq_zero (Nat.le_zero.mp h1)
    subst hcs
    cases fuel' <;> simp [scanFragsF]
  | succ n ih =>
    intro fuel' prev cs h1 h2
    cases cs with
    | nil => cases fuel' <;> simp [scanFragsF]
    | cons c rest =>
      cases fuel' with
      | zero => simp at h2
      | succ m =>
        simp only [scanFragsF]
        cases hm : tryMatchAt table prev (c :: rest) with
        | none =>
          dsimp only
          simp only [List.length_cons] at h1 h2
          rw [ih m (some c) rest (by omega) (by omega)]
        | some p =>
          obtain ⟨a, syns⟩ := p
          dsimp only
          simp only [List.length_cons] at h1 h2
          have hd : (rest.drop (a.toList.length - 1)).length ≤ rest.length := by
            rw [List.length_drop]; omega
          rw [ih m _ _ (by omega) (by omega)]

/-- Unfolding equation of `scanFrags` in terms of itself. -/
theorem scanFrags_cons (table : List (String × List String)) (prev : Option Char)
    (c : Char) (rest : List Char) :
    scanFrags table prev (c :: rest) =
      match tryMatchAt table prev (c :: rest) with
      | some (a, _) =>
        Frag.abbr a ::
          scanFrags table (some (a.toList.getLastD c)) (rest.drop (a.toList.length - 1))
      | none => Frag.plain c :: scanFrags table (some c) rest := by
  unfold scanFrags
  simp only [List.length_cons, scanFragsF]
  cases hm : tryMatchAt table prev (c :: rest) with
  | none => rfl
  | some p =>
    obtain ⟨a, syns⟩ := p
    simp only []
    congr 1
    exact scanFragsF_fuel_eq table rest.length (rest.drop (a.toList.length - 1)).length _ _
      (by rw [List.length_drop]; omega) (le_refl _)

/-- Folding plain-character fragments over a present `build_words` set
appends the characters to every word and keeps every flag. -/
theorem buildWords_plain (table : List (String × List String)) :
    ∀ (cs : List Char) (l : List SourceWord),
      buildWords table (some l) (cs.map Frag.plain) =
        some (l.map fun x => ⟨x.word ++ String.mk cs, x.has_replacements⟩) := by
  intro cs
  induction cs with
  | nil =>
    intro l
    simp only [List.map_nil, buildWords, List.foldl_nil]
    congr 1
    conv_lhs => rw [show l = l.map id from (List.map_id l).symm]
    apply List.map_congr_left
    intro x _
    cases x with
    | mk w f => simp [String.ext_iff]
  | cons c cs ih =>
    intro l
    rw [List.map_cons]
    show buildWords table
      (some (l.map fun x => ⟨x.word.push c, x.has_replacements⟩)) (cs.map Frag.plain) = _
    rw [ih]
    congr 1
    rw [List.map_map]
    apply List.map_congr_left
    intro x _
    simp only [Function.comp]
    congr 1
    apply String.ext
    simp [String.data_append, String.data_push]

/-- An all-plain fragment list built from `none` yields exactly the
original word, untagged. -/
theorem buildWords_plain_none (table : List (String × List String)) (c : Char)
    (cs : List Char) :
    buildWords table none ((c :: cs).map Frag.plain) =
      some [⟨String.mk (c :: cs), false⟩] := by
  rw [List.map_cons]
  show buildWords table (some [⟨String.singleton c, false⟩]) (cs.map Frag.plain) = _
  rw [buildWords_plain]
  have hx : String.singleton c ++ String.mk cs = String.mk (c :: cs) := by
    apply String.ext
    simp [String.data_append, String.singleton]
  simp [hx]

/-- If no abbreviation matches at any position, the splitter returns
every character as a plain fragment. -/
theorem scanFrags_all_plain (table : List (String × List String)) :
    ∀ (cs : List Char) (prev : Option Char),
      (∀ i, i < cs.length →
        tryMatchAt table (if i = 0 then prev else cs.get? (i - 1)) (cs.drop i) = none) →
      scanFrags table prev cs = cs.map Frag.plain := by
  intro cs
  induction cs with
  | nil => intro prev _; rfl
  | cons c rest ih =>
    intro prev h
    rw [scanFrags_cons]
    have h0 := h 0 (by simp)
    simp at h0
    rw [h0]
    simp only [List.map_cons]
    congr 1
    apply ih
    intro i hi
    have hh := h (i + 1) (by simp; omega)
    have hds : (c :: rest).drop (i + 1) = rest.drop i := by simp
    rw [hds] at hh
    cases i with
    | zero => simpa using hh
    | succ j => simpa using hh

/-! ### Characterization of the plain generator walk -/

theorem wordsInTokens_cons (t : Token) (rest : List Token) :
    wordsInTokens (t :: rest) =
      (match t with | Token.word w => [w] | _ => []) ++ wordsInTokens rest := by
  cases t <;> simp [wordsInTokens, List.filterMap_cons]

theorem renderChoice_word (x₀ : Option String) (w : String) (ts : List Token) (bs : List Bool) :
    renderChoice x₀ (Token.word w :: ts) bs = renderChoice (some (appPiece x₀ w)) ts bs := rfl

theorem renderChoice_round_cons (x₀ : Option String) (v : String) (ts : List Token)
    (b : Bool) (bs : List Bool) :
    renderChoice x₀ (Token.round v :: ts) (b :: bs) =
      renderChoice (if b then some (appPiece x₀ v) else some (x₀.getD "")) ts bs := rfl

theorem renderChoice_square (x₀ : Option String) (v : String) (ts : List Token) (bs : List Bool) :
    renderChoice x₀ (Token.square v :: ts) bs = renderChoice x₀ ts bs := rfl

theorem renderChoice_curly (x₀ : Option String) (v : String) (ts : List Token) (bs : List Bool) :
    renderChoice x₀ (Token.curly v :: ts) bs = renderChoice x₀ ts bs := rfl

theorem renderChoice_angle (x₀ : Option String) (v : String) (ts : List Token) (bs : List Bool) :
    renderChoice x₀ (Token.angle v :: ts) bs = renderChoice x₀ ts bs := rfl

theorem genWalk_cons (hasAbbr : Bool) (sS eS : List String) (st : GenSt) (t : Token)
    (rest : List Token) :
    genWalk hasAbbr sS eS st (t :: rest) =
      genWalk hasAbbr sS eS (genStep hasAbbr sS eS st t (hasWordTok rest)) rest := rfl

theorem countRounds_cons (t : Token) (ts : List Token) :
    countRounds (t :: ts) =
      countRounds ts + (match t with | Token.round _ => 1 | _ => 0) := by
  cases t <;> simp [countRounds, List.countP_cons]

/-- When no word of the phrase is start- or end-optional, the walk's
`finished_words` stays untouched and the final `source_words` set is
exactly the set of renderings of all round-segment choices, applied to
every element of the incoming set. -/
theorem genWalk_plain_char (hasAbbr : Bool) (sS eS : List String) :
    ∀ (ts : List Token),
      (∀ w ∈ wordsInTokens ts, eS.contains w = false ∧ sS.contains w = false) →
      ∀ st : GenSt,
        (genWalk hasAbbr sS eS st ts).finished = st.finished ∧
        ∀ x : Option String,
          SrcSet (genWalk hasAbbr sS eS st ts).src x ↔
            ∃ x₀, SrcSet st.src x₀ ∧ ∃ bs : List Bool,
              bs.length = countRounds ts ∧ renderChoice x₀ ts bs = x := by
  intro ts
  induction ts with
  | nil =>
    intro _ st
    refine ⟨rfl, fun x => ⟨fun hx => ⟨x, hx, [], rfl, rfl⟩, ?_⟩⟩
    rintro ⟨x₀, hx₀, bs, hlen, hrender⟩
    have hbs : bs = [] := List.eq_nil_of_length_eq_zero hlen
    subst hbs
    have hxx : x₀ = x := hrender
    subst hxx
    exact hx₀
  | cons t rest ih =>
    intro hno st
    have hno' : ∀ w ∈ wordsInTokens rest, eS.contains w = false ∧ sS.contains w = false := by
      intro w hw
      apply hno
      rw [wordsInTokens_cons]
      exact List.mem_append_right _ hw
    rw [genWalk_cons]
    cases t with
    | word w =>
      have hcont := hno w (by rw [wordsInTokens_cons]; exact List.mem_append_left _ (by simp))
      cases hsrc : st.src with
      | none =>
        have hstep : genStep hasAbbr sS eS st (Token.word w) (hasWordTok rest) =
            ⟨some [w], st.finished, true⟩ := by
          unfold genStep
          dsimp only
          rw [hcont.1, hcont.2, hsrc]
          simp
        rw [hstep]
        obtain ⟨ihfin, ihsrc⟩ := ih hno' ⟨some [w], st.finished, true⟩
        refine ⟨ihfin, fun x => ?_⟩
        rw [ihsrc x]
        constructor
        · rintro ⟨x₀', ⟨s, rfl, hs⟩, bs, hlen, hrender⟩
          have hsw : s = w := by simpa using hs
          subst hsw
          refine ⟨none, rfl, bs, ?_, ?_⟩
          · rw [countRounds_cons]; simpa using hlen
          · rw [renderChoice_word]; exact hrender
        · rintro ⟨x₀, hx₀, bs, hlen, hrender⟩
          have hx₀n : x₀ = none := hx₀
          subst hx₀n
          rw [countRounds_cons] at hlen
          rw [renderChoice_word] at hrender
          exact ⟨some w, ⟨w, rfl, by simp⟩, bs, by simpa using hlen, hrender⟩
      | some ws =>
        have hstep : genStep hasAbbr sS eS st (Token.word w) (hasWordTok rest) =
            ⟨some (appendWordAll ws w), st.finished, true⟩ := by
          unfold genStep
          dsimp only
          rw [hcont.1, hcont.2, hsrc]
          simp
        rw [hstep]
        obtain ⟨ihfin, ihsrc⟩ := ih hno' ⟨some (appendWordAll ws w), st.finished, true⟩
        refine ⟨ihfin, fun x => ?_⟩
        rw [ihsrc x]
        constructor
        · rintro ⟨x₀', ⟨s, rfl, hs⟩, bs, hlen, hrender⟩
          obtain ⟨a, ha, rfl⟩ := by simpa [appendWordAll] using hs
          refine ⟨some a, ⟨a, rfl, ha⟩, bs, ?_, ?_⟩
          · rw [countRounds_cons]; simpa using hlen
          · rw [renderChoice_word]; exact hrender
        · rintro ⟨x₀, ⟨a, rfl, ha⟩, bs, hlen, hrender⟩
          rw [countRounds_cons] at hlen
          rw [renderChoice_word] at hrender
          refine ⟨some (a ++ " " ++ w), ⟨a ++ " " ++ w, rfl, ?_⟩, bs, by simpa using hlen,
            hrender⟩
          simp [appendWordAll]
          exact ⟨a, ha, rfl⟩
    | round v =>
      cases hsrc : st.src with
      | none =>
        have hstep : genStep hasAbbr sS eS st (Token.round v) (hasWordTok rest) =
            ⟨some (addStr [v] ""), st.finished, st.already⟩ := by
          unfold genStep
          dsimp only
          rw [hsrc]
        rw [hstep]
        obtain ⟨ihfin, ihsrc⟩ := ih hno' ⟨some (addStr [v] ""), st.finished, st.already⟩
        refine ⟨ihfin, fun x => ?_⟩
        rw [ihsrc x]
        constructor
        · rintro ⟨x₀', ⟨s, rfl, hs⟩, bs, hlen, hrender⟩
          rw [mem_addStr] at hs
          simp only [List.mem_singleton] at hs
          rcases hs with rfl | rfl
          · refine ⟨none, rfl, true :: bs, ?_, ?_⟩
            · rw [countRounds_cons]; simp [hlen]
            · rw [renderChoice_round_cons]; simpa using hrender
          · refine ⟨none, rfl, false :: bs, ?_, ?_⟩
            · rw [countRounds_cons]; simp [hlen]
            · rw [renderChoice_round_cons]; simpa using hrender
        · rintro ⟨x₀, hx₀, bs, hlen, hrender⟩
          have hx₀n : x₀ = none := hx₀
          subst hx₀n
          rw [countRounds_cons] at hlen
          cases bs with
          | nil => simp at hlen
          | cons b bs' =>
            rw [renderChoice_round_cons] at hrender
            simp only [List.length_cons] at hlen
            cases b with
            | true =>
              refine ⟨some v, ⟨v, rfl, by rw [mem_addStr]; simp⟩, bs', by omega, ?_⟩
              simpa using hrender
            | false =>
              refine ⟨some "", ⟨"", rfl, by rw [mem_addStr]; simp⟩, bs', by omega, ?_⟩
              simpa using hrender
      | some ws =>
        have hstep : genStep hasAbbr sS eS st (Token.round v) (hasWordTok rest) =
            ⟨some (unionStr ws (appendWordAll ws v)), st.finished, st.already⟩ := by
          unfold genStep
          dsimp only
          rw [hsrc]
        rw [hstep]
        obtain ⟨ihfin, ihsrc⟩ := ih hno' ⟨some (unionStr ws (appendWordAll ws v)),
          st.finished, st.already⟩
        refine ⟨ihfin, fun x => ?_⟩
        rw [ihsrc x]
        constructor
        · rintro ⟨x₀', ⟨s, rfl, hs⟩, bs, hlen, hrender⟩
          rw [mem_unionStr] at hs
          rcases hs with hs | hs
          · refine ⟨some s, ⟨s, rfl, hs⟩, false :: bs, ?_, ?_⟩
            · rw [countRounds_cons]; simp [hlen]
            · rw [renderChoice_round_cons]; simpa using hrender
          · obtain ⟨a, ha, rfl⟩ := by simpa [appendWordAll] using hs
            refine ⟨some a, ⟨a, rfl, ha⟩, true :: bs, ?_, ?_⟩
            · rw [countRounds_cons]; simp [hlen]
            · rw [renderChoice_round_cons]; simpa using hrender
        · rintro ⟨x₀, ⟨a, rfl, ha⟩, bs, hlen, hrender⟩
          rw [countRounds_cons] at hlen
          cases bs with
          | nil => simp at hlen
          | cons b bs' =>
            rw [renderChoice_round_cons] at hrender
            simp only [List.length_cons] at hlen
            cases b with
            | true =>
              refine ⟨some (a ++ " " ++ v), ⟨a ++ " " ++ v, rfl, ?_⟩, bs', by omega, ?_⟩
              · rw [mem_unionStr]
                right
                simp [appendWordAll]
                exact ⟨a, ha, rfl⟩
              · simpa using hrender
            | false =>
              refine ⟨some a, ⟨a, rfl, ?_⟩, bs', by omega, ?_⟩
              · rw [mem_unionStr]; exact Or.inl ha
              · simpa using hrender
    | square v =>
      have hstep : genStep hasAbbr sS eS st (Token.square v) (hasWordTok rest) = st := rfl
      rw [hstep]
      obtain ⟨ihfin, ihsrc⟩ := ih hno' st
      refine ⟨ihfin, fun x => ?_⟩
      rw [ihsrc x]
      simp only [renderChoice_square, countRounds_cons, Nat.add_zero]
    | curly v =>
      have hstep : genStep hasAbbr sS eS st (Token.curly v) (hasWordTok rest) = st := rfl
      rw [hstep]
      obtain ⟨ihfin, ihsrc⟩ := ih hno' st
      refine ⟨ihfin, fun x => ?_⟩
      rw [ihsrc x]
      simp only [renderChoice_curly, countRounds_cons, Nat.add_zero]
    | angle v =>
      have hstep : genStep hasAbbr sS eS st (Token.angle v) (hasWordTok rest) = st := rfl
      rw [hstep]
      obtain ⟨ihfin, ihsrc⟩ := ih hno' st
      refine ⟨ihfin, fun x => ?_⟩
      rw [ihsrc x]
      simp only [renderChoice_angle, countRounds_cons, Nat.add_zero]

/-- A choice vector belongs to `allChoices n` exactly when it has
length `n`. -/
theorem mem_allChoices : ∀ (n : Nat) (bs : List Bool), bs ∈ allChoices n ↔ bs.length = n := by
  intro n
  induction n with
  | zero => intro bs; simp [allChoices, List.length_eq_zero]
  | succ m ih =>
    intro bs
    simp only [allChoices, List.mem_append, List.mem_map]
    constructor
    · rintro (⟨bs', hbs', rfl⟩ | ⟨bs', hbs', rfl⟩) <;> simp [(ih bs').mp hbs']
    · intro hlen
      cases bs with
      | nil => simp at hlen
      | cons b bs' =>
        simp only [List.length_cons, Nat.succ.injEq] at hlen
        cases b
        · exact Or.inr ⟨bs', (ih bs').mpr hlen, rfl⟩
        · exact Or.inl ⟨bs', (ih bs').mpr hlen, rfl⟩

/-- There are `2 ^ n` choice vectors of length `n`. -/
theorem allChoices_length : ∀ n : Nat, (allChoices n).length = 2 ^ n := by
  intro n
  induction n with
  | zero => rfl
  | succ m ih =>
    simp only [allChoices, List.length_append, List.length_map, ih]
    rw [pow_succ]
    omega

/-- Once the accumulator is set, every rendering is set. -/
theorem renderChoice_some_acc : ∀ (ts : List Token) (bs : List Bool) (a : String),
    ∃ s, renderChoice (some a) ts bs = some s := by
  intro ts
  induction ts with
  | nil => intro bs a; exact ⟨a, rfl⟩
  | cons t rest ih =>
    intro bs a
    cases t with
    | word w => exact ih bs (appPiece (some a) w)
    | round v =>
      cases bs with
      | nil => exact ih [] _
      | cons b bs' =>
        rw [renderChoice_round_cons]
        cases b
        · simpa using ih bs' a
        · simpa using ih bs' (appPiece (some a) v)
    | square v => exact ih bs a
    | curly v => exact ih bs a
    | angle v => exact ih bs a

/-- A phrase containing a `Word` token always renders to a set value. -/
theorem renderChoice_some_of_word : ∀ (ts : List Token) (bs : List Bool) (x₀ : Option String),
    hasWordTok ts = true → ∃ s, renderChoice x₀ ts bs = some s := by
  intro ts
  induction ts with
  | nil => intro bs x₀ h; simp [hasWordTok] at h
  | cons t rest ih =>
    intro bs x₀ h
    cases t with
    | word w => exact renderChoice_some_acc rest bs (appPiece x₀ w)
    | round v =>
      have h' : hasWordTok rest = true := by simpa [hasWordTok] using h
      cases bs with
      | nil => exact ih [] _ h'
      | cons b bs' =>
        rw [renderChoice_round_cons]
        exact ih bs' _ h'
    | square v => exact ih bs x₀ (by simpa [hasWordTok] using h)
    | curly v => exact ih bs x₀ (by simpa [hasWordTok] using h)
    | angle v => exact ih bs x₀ (by simpa [hasWordTok] using h)

/-- `appPiece` keeps every character of the appended piece. -/
theorem mem_appPiece (x₀ : Option String) (w : String) (ch : Char) (hch : ch ∈ w.toList) :
    ch ∈ (appPiece x₀ w).toList := by
  cases x₀ with
  | none => exact hch
  | some a =>
    show ch ∈ (a ++ " " ++ w).data
    simp [String.data_append]
    tauto

/-- A rendering from a set accumulator keeps a non-whitespace witness of
the accumulator. -/
theorem renderChoice_keeps_nonwhite :
    ∀ (ts : List Token) (bs : List Bool) (a s : String),
      renderChoice (some a) ts bs = some s →
      (∃ ch ∈ a.toList, pySpace ch = false) →
      ∃ ch ∈ s.toList, pySpace ch = false := by
  intro ts
  induction ts with
  | nil =>
    intro bs a s hr ha
    have : a = s := by simpa [renderChoice] using hr
    subst this
    exact ha
  | cons t rest ih =>
    intro bs a s hr ha
    obtain ⟨ch, hch, hw⟩ := ha
    cases t with
    | word w =>
      rw [renderChoice_word] at hr
      refine ih bs _ s hr ⟨ch, ?_, hw⟩
      show ch ∈ (a ++ " " ++ w).data
      simp [String.data_append]
      tauto
    | round v =>
      cases bs with
      | nil =>
        refine ih [] _ s hr ⟨ch, ?_, hw⟩
        simpa using hch
      | cons b bs' =>
        rw [renderChoice_round_cons] at hr
        cases b
        · have hr' : renderChoice (some a) rest bs' = some s := by simpa using hr
          exact ih bs' a s hr' ⟨ch, hch, hw⟩
        · have hr' : renderChoice (some (a ++ " " ++ v)) rest bs' = some s := by
            simpa [appPiece] using hr
          refine ih bs' _ s hr' ⟨ch, ?_, hw⟩
          show ch ∈ (a ++ " " ++ v).data
          simp [String.data_append]
          tauto
    | square v => exact ih bs a s hr ⟨ch, hch, hw⟩
    | curly v => exact ih bs a s hr ⟨ch, hch, hw⟩
    | angle v => exact ih bs a s hr ⟨ch, hch, hw⟩

/-- Every rendering contains a non-whitespace character of any of the
phrase's words. -/
theorem renderChoice_word_nonwhite :
    ∀ (ts : List Token) (bs : List Bool) (x₀ : Option String) (s w : String),
      w ∈ wordsInTokens ts → (∃ ch ∈ w.toList, pySpace ch = false) →
      renderChoice x₀ ts bs = some s →
      ∃ ch ∈ s.toList, pySpace ch = false := by
  intro ts
  induction ts with
  | nil => intro bs x₀ s w hw _ _; simp [wordsInTokens] at hw
  | cons t rest ih =>
    intro bs x₀ s w hw hnw hr
    cases t with
    | word w' =>
      rw [wordsInTokens_cons] at hw
      simp only [List.mem_append, List.mem_singleton] at hw
      rw [renderChoice_word] at hr
      rcases hw with rfl | hw
      · obtain ⟨ch, hch, hwh⟩ := hnw
        exact renderChoice_keeps_nonwhite rest bs _ s hr ⟨ch, mem_appPiece x₀ w ch hch, hwh⟩
      · exact ih bs _ s w hw hnw hr
    | round v =>
      have hw' : w ∈ wordsInTokens rest := by
        rw [wordsInTokens_cons] at hw
        simpa using hw
      cases bs with
      | nil => exact ih [] _ s w hw' hnw hr
      | cons b bs' =>
        rw [renderChoice_round_cons] at hr
        exact ih bs' _ s w hw' hnw hr
    | square v =>
      have hw' : w ∈ wordsInTokens rest := by
        rw [wordsInTokens_cons] at hw
        simpa using hw
      exact ih bs _ s w hw' hnw hr
    | curly v =>
      have hw' : w ∈ wordsInTokens rest := by
        rw [wordsInTokens_cons] at hw
        simpa using hw
      exact ih bs _ s w hw' hnw hr
    | angle v =>
      have hw' : w ∈ wordsInTokens rest := by
        rw [wordsInTokens_cons] at hw
        simpa using hw
      exact ih bs _ s w hw' hnw hr

/-- A string with a non-whitespace character does not normalize to
empty. -/
theorem normalizeWs_ne_empty (s : String) (h : ∃ ch ∈ s.toList, pySpace ch = false) :
    normalizeWs s ≠ "" := by
  intro hc
  rw [normalizeWs_eq_empty_iff] at hc
  obtain ⟨ch, hch, hw⟩ := h
  rw [hc ch hch] at hw
  exact absurd hw (by simp)

theorem hasWordTok_cons (t : Token) (rest : List Token) :
    hasWordTok (t :: rest) =
      ((match t with | Token.word _ => true | _ => false) || hasWordTok rest) := by
  simp [hasWordTok, List.any_cons]

/-- A phrase with a word among its tokens has a word token. -/
theorem hasWordTok_of_mem_words : ∀ (ts : List Token) (w : String),
    w ∈ wordsInTokens ts → hasWordTok ts = true := by
  intro ts
  induction ts with
  | nil => intro w hw; simp [wordsInTokens] at hw
  | cons t rest ih =>
    intro w hw
    rw [wordsInTokens_cons] at hw
    rw [hasWordTok_cons]
    cases t with
    | word w' => simp
    | round v => simpa using ih w (by simpa using hw)
    | square v => simpa using ih w (by simpa using hw)
    | curly v => simpa using ih w (by simpa using hw)
    | angle v => simpa using ih w (by simpa using hw)

/-! ### Claim C3 (amended theorem) -/

/-- C3 amended: a phrase with `n` top-level round-bracket segments, no
optional abbreviations, and at least one `Word` segment containing a
character outside Python's `str.split` whitespace set yields exactly
the set of whitespace-normalized renderings of the `2 ^ n`
inclusion/exclusion choices over its round segments — i.e. `2 ^ n`
candidates up to string collisions after normalization.  The `Word`
condition is necessary, not merely convenient: without such a segment —
no words at all, as in `"(abc)"`, or only all-whitespace words, as in
`"\r (b)"` (`\r` is a word to pyparsing, whose skip set is `" \t\n"`,
but whitespace to `str.split`) — the all-dropped rendering normalizes
to empty and is silently dropped, so the count falls below `2 ^ n`
without any collision. -/
theorem c3_round_cardinality (ts : List Token) (wc : Option String) (lang : String)
    (hopt : ∀ w ∈ wordsInTokens ts,
      (endOptional lang).contains w = false ∧ (startOptional lang wc).contains w = false)
    (hword : ∃ w ∈ wordsInTokens ts, ∃ ch ∈ w.toList, pySpace ch = false) :
    (∀ c : String, c ∈ candidatesFromTokens ts wc lang ↔
      ∃ bs ∈ allChoices (countRounds ts),
        normalizeWs ((renderChoice none ts bs).getD "") = c) ∧
    (allChoices (countRounds ts)).length = 2 ^ countRounds ts := by
  refine ⟨?_, allChoices_length _⟩
  intro c
  obtain ⟨hfin, hsrc⟩ := genWalk_plain_char (hasOptionalTables lang) (startOptional lang wc)
    (endOptional lang) ts hopt ⟨none, [], false⟩
  have hword' : hasWordTok ts = true := by
    obtain ⟨w, hw, _⟩ := hword
    exact hasWordTok_of_mem_words ts w hw
  constructor
  · intro hc
    simp only [candidatesFromTokens] at hc
    rw [mem_dedupStr, List.mem_filter] at hc
    obtain ⟨hc1, hc2⟩ := hc
    rw [List.mem_map] at hc1
    obtain ⟨s, hs, rfl⟩ := hc1
    rw [mem_unionStr, hfin] at hs
    have hs' : s ∈ (genWalk (hasOptionalTables lang) (startOptional lang wc)
        (endOptional lang) ⟨none, [], false⟩ ts).src.getD [] := by
      rcases hs with hs | hs
      · exact hs
      · simp at hs
    cases hsx : (genWalk (hasOptionalTables lang) (startOptional lang wc)
        (endOptional lang) ⟨none, [], false⟩ ts).src with
    | none => rw [hsx] at hs'; simp at hs'
    | some S =>
      rw [hsx] at hs'
      simp only [Option.getD_some] at hs'
      have hss : SrcSet (some S) (some s) := ⟨s, rfl, hs'⟩
      rw [← hsx] at hss
      obtain ⟨x₀, hx₀, bs, hlen, hrender⟩ := (hsrc (some s)).mp hss
      have hx₀n : x₀ = none := hx₀
      subst hx₀n
      refine ⟨bs, (mem_allChoices _ bs).mpr hlen, ?_⟩
      rw [hrender]
      rfl
  · rintro ⟨bs, hbs, rfl⟩
    have hlen := (mem_allChoices _ bs).mp hbs
    obtain ⟨s, hrender⟩ := renderChoice_some_of_word ts bs none hword'
    have hss : SrcSet (genWalk (hasOptionalTables lang) (startOptional lang wc)
        (endOptional lang) ⟨none, [], false⟩ ts).src (some s) :=
      (hsrc (some s)).mpr ⟨none, rfl, bs, hlen, hrender⟩
    have hnw : ∃ ch ∈ s.toList, pySpace ch = false := by
      obtain ⟨w, hw, hnw⟩ := hword
      exact renderChoice_word_nonwhite ts bs none s w hw hnw hrender
    cases hsx : (genWalk (hasOptionalTables lang) (startOptional lang wc)
        (endOptional lang) ⟨none, [], false⟩ ts).src with
    | none => rw [hsx] at hss; exact absurd hss (by simp [SrcSet])
    | some S =>
      rw [hsx] at hss
      obtain ⟨s', heq, hsS⟩ := hss
      have hseq : s = s' := Option.some.inj heq
      rw [← hseq] at hsS
      simp only [candidatesFromTokens]
      rw [mem_dedupStr, List.mem_filter]
      constructor
      · rw [List.mem_map]
        refine ⟨s, ?_, by rw [hrender]; rfl⟩
        rw [mem_unionStr]
        left
        rw [hsx]
        simpa using hsS
      · rw [hrender]
        simpa using normalizeWs_ne_empty s hnw

/-- Witness for `c3_round_cardinality`: the phrase `a (b) (c)` (one
word, two round segments); its candidate `"a c"` is a normalized
rendering, and there are `2 ^ 2` choice vectors. -/
theorem c3_round_cardinality_witness :
    ("a c" ∈ candidatesFromTokens [Token.word "a", Token.round "b", Token.round "c"]
        none "en" ↔
      ∃ bs ∈ allChoices (countRounds [Token.word "a", Token.round "b", Token.round "c"]),
        normalizeWs ((renderChoice none
          [Token.word "a", Token.round "b", Token.round "c"] bs).getD "") = "a c") ∧
    (allChoices (countRounds [Token.word "a", Token.round "b", Token.round "c"])).length =
      2 ^ countRounds [Token.word "a", Token.round "b", Token.round "c"] := by
  obtain ⟨h1, h2⟩ := c3_round_cardinality
    [Token.word "a", Token.round "b", Token.round "c"] none "en" (by decide) (by decide)
  exact ⟨h1 "a c", h2⟩

/-! ### Word-set lemmas for the expander -/

/-- Adding to a `SourceWord` set adds exactly one word string. -/
theorem mem_addSW_word (l : List SourceWord) (y : SourceWord) (u : String) :
    (∃ x ∈ addSW l y, x.word = u) ↔ (∃ x ∈ l, x.word = u) ∨ u = y.word := by
  unfold addSW
  by_cases h : (l.any fun z => z.word = y.word) = true
  · rw [if_pos h]
    simp only [List.any_eq_true, decide_eq_true_eq] at h
    constructor
    · exact Or.inl
    · rintro (hx | rfl)
      · exact hx
      · exact h
  · rw [if_neg h]
    simp only [List.mem_append, List.mem_singleton]
    constructor
    · rintro ⟨x, hx | rfl, hxu⟩
      · exact Or.inl ⟨x, hx, hxu⟩
      · exact Or.inr hxu.symm
    · rintro (⟨x, hx, hxu⟩ | rfl)
      · exact ⟨x, Or.inl hx, hxu⟩
      · exact ⟨y, Or.inr rfl, rfl⟩

/-- Word-set of a fold of `addSW`. -/
theorem wordset_foldl_addSW : ∀ (l init : List SourceWord) (u : String),
    (∃ x ∈ l.foldl addSW init, x.word = u) ↔
      (∃ x ∈ init, x.word = u) ∨ (∃ x ∈ l, x.word = u) := by
  intro l
  induction l with
  | nil => intro init u; simp
  | cons y ys ih =>
    intro init u
    show (∃ x ∈ ys.foldl addSW (addSW init y), x.word = u) ↔ _
    rw [ih, mem_addSW_word]
    simp only [List.exists_mem_cons_iff]
    constructor
    · rintro ((h | h) | h)
      · exact Or.inl h
      · exact Or.inr (Or.inl h.symm)
      · exact Or.inr (Or.inr h)
    · rintro (h | h | h)
      · exact Or.inl (Or.inl h)
      · exact Or.inl (Or.inr h.symm)
      · exact Or.inr h

/-- `dedupSW` keeps the word set. -/
theorem mem_dedupSW_word (l : List SourceWord) (u : String) :
    (∃ x ∈ dedupSW l, x.word = u) ↔ ∃ x ∈ l, x.word = u := by
  unfold dedupSW
  rw [wordset_foldl_addSW]
  simp

/-- Word-set of a nested update fold (the `return_words.update` /
`build_words` accumulation patterns). -/
theorem wordset_double_fold {α : Type} (f : α → List SourceWord) :
    ∀ (L : List α) (init : List SourceWord) (u : String),
      (∃ x ∈ L.foldl (fun acc a => (f a).foldl addSW acc) init, x.word = u) ↔
        (∃ x ∈ init, x.word = u) ∨ ∃ a ∈ L, ∃ x ∈ f a, x.word = u := by
  intro L
  induction L with
  | nil => intro init u; simp
  | cons a L' ih =>
    intro init u
    show (∃ x ∈ L'.foldl _ ((f a).foldl addSW init), x.word = u) ↔ _
    rw [ih, wordset_foldl_addSW]
    simp only [List.exists_mem_cons_iff]
    constructor
    · rintro ((h | h) | h)
      · exact Or.inl h
      · exact Or.inr (Or.inl h)
      · exact Or.inr (Or.inr h)
    · rintro (h | h | h)
      · exact Or.inl (Or.inl h)
      · exact Or.inl (Or.inr h)
      · exact Or.inr h

/-- The strings of `expandStage` come from expanding some candidate. -/
theorem expandStage_words (lang : String) (ws : List String) (u : String) :
    (∃ x ∈ expandStage lang ws, x.word = u) ↔
      ∃ w ∈ ws, ∃ x ∈ expandWord lang w, x.word = u := by
  unfold expandStage
  rw [wordset_double_fold]
  simp

/-- The strings of `finalizeWords` are the nonempty normalizations. -/
theorem finalize_words (rw : List SourceWord) (u : String) :
    (∃ x ∈ finalizeWords rw, x.word = u) ↔
      (∃ x ∈ rw, normalizeWs x.word = u) ∧ u ≠ "" := by
  unfold finalizeWords
  rw [mem_dedupSW_word]
  constructor
  · rintro ⟨x, hx, rfl⟩
    rw [List.mem_filter, List.mem_map] at hx
    obtain ⟨⟨y, hy, rfl⟩, hne⟩ := hx
    simp only [decide_eq_true_eq] at hne
    exact ⟨⟨y, hy, rfl⟩, hne⟩
  · rintro ⟨⟨y, hy, hnorm⟩, hne⟩
    refine ⟨⟨normalizeWs y.word, y.has_replacements⟩, ?_, hnorm⟩
    rw [List.mem_filter, List.mem_map]
    exact ⟨⟨y, hy, rfl⟩, by simpa [hnorm] using hne⟩

/-- A word-predicate existential transfers through `dedupSW`. -/
theorem dedupSW_word_pred (l : List SourceWord) (P : String → Prop) :
    (∃ x ∈ dedupSW l, P x.word) ↔ ∃ x ∈ l, P x.word := by
  constructor
  · rintro ⟨x, hx, hP⟩
    obtain ⟨y, hy, hyw⟩ := (mem_dedupSW_word l x.word).mp ⟨x, hx, rfl⟩
    exact ⟨y, hy, hyw ▸ hP⟩
  · rintro ⟨x, hx, hP⟩
    obtain ⟨y, hy, hyw⟩ := (mem_dedupSW_word l x.word).mpr ⟨x, hx, rfl⟩
    exact ⟨y, hy, hyw ▸ hP⟩

/-- `buildWords` over a present set: its word set is exactly the set of
combination strings. -/
theorem buildWords_words (table : List (String × List String)) :
    ∀ (fs : List Frag) (l : List SourceWord) (acc : List String),
      (∀ u, (∃ x ∈ l, x.word = u) ↔ u ∈ acc) →
      ∀ u, (∃ x ∈ (buildWords table (some l) fs).getD [], x.word = u) ↔
        u ∈ fragRendersAux table acc fs := by
  intro fs
  induction fs with
  | nil =>
    intro l acc hrep u
    simpa [buildWords, fragRendersAux] using hrep u
  | cons f fs' ih =>
    intro l acc hrep u
    cases f with
    | plain c =>
      show (∃ x ∈ (buildWords table (buildStep table (some l) (Frag.plain c)) fs').getD [],
        x.word = u) ↔ u ∈ fragRendersAux table (acc.map fun s => s.push c) fs'
      rw [show buildStep table (some l) (Frag.plain c) =
        some (l.map fun x => ⟨x.word.push c, x.has_replacements⟩) from rfl]
      apply ih
      intro v
      constructor
      · rintro ⟨x, hx, hxv⟩
        rw [List.mem_map] at hx
        obtain ⟨y, hy, rfl⟩ := hx
        rw [List.mem_map]
        exact ⟨y.word, (hrep y.word).mp ⟨y, hy, rfl⟩, hxv⟩
      · intro hv
        rw [List.mem_map] at hv
        obtain ⟨s, hs, rfl⟩ := hv
        obtain ⟨y, hy, hyw⟩ := (hrep s).mpr hs
        exact ⟨⟨y.word.push c, y.has_replacements⟩,
          List.mem_map.mpr ⟨y, hy, rfl⟩, by rw [hyw]⟩
    | abbr a =>
      show (∃ x ∈ (buildWords table (buildStep table (some l) (Frag.abbr a)) fs').getD [],
        x.word = u) ↔ u ∈ fragRendersAux table
          (acc.flatMap fun s => ((synonymsOf table a).map fun r => s ++ r) ++ [s ++ a]) fs'
      have hstep : buildStep table (some l) (Frag.abbr a) =
          some ((dedupSW l).foldl
            (fun acc2 x => (repsFor a (synonymsOf table a)).foldl
              (fun acc3 rp => addSW acc3 ⟨x.word ++ rp.1, x.has_replacements || rp.2⟩)
              acc2) []) := rfl
      rw [hstep]
      apply ih
      intro v
      have hinner : ∀ (x : SourceWord) (acc2 : List SourceWord),
          (repsFor a (synonymsOf table a)).foldl
              (fun acc3 rp => addSW acc3 ⟨x.word ++ rp.1, x.has_replacements || rp.2⟩)
              acc2 =
            ((repsFor a (synonymsOf table a)).map
              (fun rp => (⟨x.word ++ rp.1, x.has_replacements || rp.2⟩ : SourceWord))).foldl
              addSW acc2 := by
        intro x acc2
        rw [List.foldl_map]
      constructor
      · rintro ⟨x, hx, hxv⟩
        rw [show ((dedupSW l).foldl
            (fun acc2 x => (repsFor a (synonymsOf table a)).foldl
              (fun acc3 rp => addSW acc3 ⟨x.word ++ rp.1, x.has_replacements || rp.2⟩)
              acc2) []) = ((dedupSW l).foldl
            (fun acc2 x => (((repsFor a (synonymsOf table a)).map
              (fun rp => (⟨x.word ++ rp.1, x.has_replacements || rp.2⟩ : SourceWord)))).foldl
              addSW acc2) []) from by
          congr 1
          funext acc2 x
          exact hinner x acc2] at hx
        have hw := (wordset_double_fold _ (dedupSW l) [] v).mp ⟨x, hx, hxv⟩
        rcases hw with ⟨y, hy, -⟩ | ⟨y, hy, z, hz, hzv⟩
        · simp at hy
        · rw [List.mem_map] at hz
          obtain ⟨rp, hrp, rfl⟩ := hz
          have hyy : ∃ x ∈ l, ∃ rp ∈ repsFor a (synonymsOf table a), x.word ++ rp.1 = v := by
            refine (dedupSW_word_pred l
              (fun w => ∃ rp ∈ repsFor a (synonymsOf table a), w ++ rp.1 = v)).mp
              ⟨y, hy, rp, hrp, hzv⟩
          obtain ⟨x', hx', rp', hrp', hrpv⟩ := hyy
          rw [List.mem_flatMap]
          refine ⟨x'.word, (hrep x'.word).mp ⟨x', hx', rfl⟩, ?_⟩
          rw [List.mem_append, List.mem_map, List.mem_singleton]
          unfold repsFor at hrp'
          rw [List.mem_append, List.mem_map, List.mem_singleton] at hrp'
          rcases hrp' with ⟨r, hr, rfl⟩ | rfl
          · exact Or.inl ⟨r, hr, hrpv⟩
          · exact Or.inr hrpv.symm
      · intro hv
        rw [List.mem_flatMap] at hv
        obtain ⟨s, hs, hsv⟩ := hv
        obtain ⟨y, hy, hyw⟩ := (hrep s).mpr hs
        rw [List.mem_append, List.mem_map, List.mem_singleton] at hsv
        have hrp : ∃ rp ∈ repsFor a (synonymsOf table a), s ++ rp.1 = v := by
          unfold repsFor
          rcases hsv with ⟨r, hr, hrv⟩ | rfl
          · exact ⟨(r, true), by rw [List.mem_append, List.mem_map]
                                 exact Or.inl ⟨r, hr, rfl⟩, hrv⟩
          · exact ⟨(a, false), by rw [List.mem_append, List.mem_singleton]
                                  exact Or.inr rfl, rfl⟩
        obtain ⟨rp, hrpmem, hrpv⟩ := hrp
        rw [show ((dedupSW l).foldl
            (fun acc2 x => (repsFor a (synonymsOf table a)).foldl
              (fun acc3 rp => addSW acc3 ⟨x.word ++ rp.1, x.has_replacements || rp.2⟩)
              acc2) []) = ((dedupSW l).foldl
            (fun acc2 x => (((repsFor a (synonymsOf table a)).map
              (fun rp => (⟨x.word ++ rp.1, x.has_replacements || rp.2⟩ : SourceWord)))).foldl
              addSW acc2) []) from by
          congr 1
          funext acc2 x
          exact hinner x acc2]
        apply (wordset_double_fold _ (dedupSW l) [] v).mpr
        right
        obtain ⟨y', hy', hy'w⟩ := (dedupSW_word_pred l (fun w => w = y.word)).mpr ⟨y, hy, rfl⟩
        refine ⟨y', hy', ⟨y'.word ++ rp.1, y'.has_replacements || rp.2⟩,
          List.mem_map.mpr ⟨rp, hrpmem, rfl⟩, ?_⟩
        rw [hy'w, hyw, hrpv]

/-! ### Lemmas about abbreviation matching and scanning -/

theorem getLastD_mem_of_ne_nil : ∀ (l : List Char) (d : Char), l ≠ [] → l.getLastD d ∈ l := by
  intro l
  induction l with
  | nil => intro d h; exact absurd rfl h
  | cons c rest ih =>
    intro d _
    cases rest with
    | nil => simp [List.getLastD]
    | cons e es =>
      rw [List.getLastD_cons]
      exact List.mem_cons_of_mem c (ih c (by simp))

theorem getLastD_default_irrel (l : List Char) (d1 d2 : Char) (h : l ≠ []) :
    l.getLastD d1 = l.getLastD d2 := by
  cases l with
  | nil => exact absurd rfl h
  | cons c rest => simp [List.getLastD]

theorem ppPrintable_space : ppPrintable ' ' = false := by decide

/-- A successful match yields a table entry whose key is a nonempty
prefix of the input. -/
theorem tryMatchAt_eq_some (table : List (String × List String)) (prev : Option Char)
    (cs : List Char) (p : String × List String) (h : tryMatchAt table prev cs = some p) :
    p ∈ table ∧ p.1.toList ≠ [] ∧ p.1.toList <+: cs := by
  unfold tryMatchAt at h
  refine ⟨List.mem_of_find?_eq_some h, ?_⟩
  have hm := List.find?_some h
  unfold matchAbbr at hm
  cases hal : p.1.toList with
  | nil => rw [hal] at hm; simp at hm
  | cons x xs =>
    rw [hal] at hm
    simp only [Bool.and_eq_true] at hm
    exact ⟨by simp, List.isPrefixOf_iff_prefix.mp hm.1.1⟩

/-- An all-printable abbreviation different from `w` never matches at
the start of `w` followed by a space or the end of input. -/
theorem matchAbbr_ne_false (w a : String) (tail : List Char) (prev : Option Char)
    (hap : ∀ c ∈ a.toList, ppPrintable c = true)
    (hwp : ∀ c ∈ w.toList, ppPrintable c = true)
    (htail : tail = [] ∨ ∃ r, tail = ' ' :: r)
    (hne : a ≠ w) :
    matchAbbr prev (w.toList ++ tail) a = false := by
  unfold matchAbbr
  cases hal : a.toList with
  | nil => rfl
  | cons x xs =>
    dsimp only
    by_cases hpre : (x :: xs).isPrefixOf (w.toList ++ tail) = true
    · have hpre' : (x :: xs) <+: (w.toList ++ tail) := List.isPrefixOf_iff_prefix.mp hpre
      rcases Nat.lt_trichotomy (x :: xs).length w.toList.length with hlt | heq | hgt
      · -- shorter: the character after the match inside `w` is printable
        have hdrop : (w.toList ++ tail).drop (x :: xs).length
            = w.toList.drop (x :: xs).length ++ tail :=
          List.drop_append_of_le_length (le_of_lt hlt)
        cases hd : w.toList.drop (x :: xs).length with
        | nil =>
          exfalso
          have hlen := congrArg List.length hd
          simp only [List.length_drop, List.length_nil, List.length_cons] at hlen hlt
          omega
        | cons d ds =>
          have hdw : d ∈ w.toList := List.drop_subset _ _ (hd ▸ List.mem_cons_self d ds)
          have hdp := hwp d hdw
          rw [hdrop, hd]
          simp [wordEndOk, hdp]
      · -- equal length: the abbreviation IS w, contradiction
        exfalso
        have hw2 : w.toList <+: (w.toList ++ tail) := List.prefix_append _ _
        have hps : (x :: xs) <+: w.toList :=
          List.prefix_of_prefix_length_le hpre' hw2 (le_of_eq heq)
        have hxw : (x :: xs) = w.toList := hps.eq_of_length heq
        apply hne
        apply String.ext
        rw [show a.data = a.toList from rfl, hal, hxw]
        rfl
      · -- longer: the match would contain the space after w
        exfalso
        have hw2 : w.toList <+: (w.toList ++ tail) := List.prefix_append _ _
        have hwpre : w.toList <+: (x :: xs) :=
          List.prefix_of_prefix_length_le hw2 hpre' (le_of_lt hgt)
        obtain ⟨e, he⟩ := hwpre
        have hene : e ≠ [] := by
          intro hnil
          rw [hnil, List.append_nil] at he
          have := congrArg List.length he
          simp only [List.length_cons] at this hgt
          omega
        have hepre : w.toList ++ e <+: w.toList ++ tail := he ▸ hpre'
        have he2 : e <+: tail := (List.prefix_append_right_inj _).mp hepre
        rcases htail with rfl | ⟨r, rfl⟩
        · exact hene (List.prefix_nil.mp he2)
        · cases e with
          | nil => exact hene rfl
          | cons c e' =>
            obtain ⟨t', ht'⟩ := he2
            rw [List.cons_append] at ht'
            have hc : c = ' ' := by injection ht'
            have hmem : c ∈ a.toList := by
              rw [hal, ← he]
              simp
            have hcp := hap c hmem
            rw [hc, ppPrintable_space] at hcp
            exact absurd hcp (by simp)
    · have hpf : (x :: xs).isPrefixOf (w.toList ++ tail) = false := by
        cases h2 : (x :: xs).isPrefixOf (w.toList ++ tail)
        · rfl
        · exact absurd h2 hpre
      rw [hpf]
      rfl

/-- The abbreviation `w` itself matches at the start of `w` followed by
a space or end of input. -/
theorem matchAbbr_self (w : String) (tail : List Char)
    (hne : w.toList ≠ []) (hwp : ∀ c ∈ w.toList, ppPrintable c = true)
    (htail : tail = [] ∨ ∃ r, tail = ' ' :: r) :
    matchAbbr none (w.toList ++ tail) w = true := by
  unfold matchAbbr
  cases hal : w.toList with
  | nil => exact absurd hal hne
  | cons x xs =>
    dsimp only
    have hpre : (x :: xs).isPrefixOf ((x :: xs) ++ tail) = true :=
      List.isPrefixOf_iff_prefix.mpr ⟨tail, rfl⟩
    have hdrop : ((x :: xs) ++ tail).drop (x :: xs).length = tail :=
      List.drop_left _ _
    have hlastp : ppPrintable ((x :: xs).getLastD x) = true := by
      apply hwp
      rw [hal]
      exact getLastD_mem_of_ne_nil (x :: xs) x (by simp)
    rw [hpre, hdrop]
    rcases htail with rfl | ⟨r, rfl⟩
    · rfl
    · have hend : wordEndOk ((x :: xs).getLastD x) (' ' :: r) = true := by
        unfold wordEndOk
        dsimp only
        rw [ppPrintable_space, hlastp]
        rfl
      rw [hend]
      rfl

/-- Ordered matching at the start of `w` followed by a space or the end
of input finds exactly `w` with its synonyms, for any table containing
`w` whose keys are nonempty and all-printable. -/
theorem tryMatchAt_first : ∀ (table : List (String × List String)) (w : String)
    (tail : List Char),
    (∃ syns, (w, syns) ∈ table) →
    (∀ p ∈ table, p.1.toList ≠ [] ∧ ∀ c ∈ p.1.toList, ppPrintable c = true) →
    (tail = [] ∨ ∃ r, tail = ' ' :: r) →
    tryMatchAt table none (w.toList ++ tail) = some (w, synonymsOf table w) := by
  intro table
  induction table with
  | nil => intro w tail hmem _ _; obtain ⟨syns, h⟩ := hmem; simp at h
  | cons p rest ih =>
    intro w tail hmem htp htail
    have hwp : ∀ c ∈ w.toList, ppPrintable c = true := by
      obtain ⟨syns, hsy⟩ := hmem
      exact (htp (w, syns) hsy).2
    by_cases hpw : p.1 = w
    · have hmatch : matchAbbr none (w.toList ++ tail) p.1 = true := by
        rw [hpw]
        refine matchAbbr_self w tail ?_ hwp htail
        have h1 := (htp p (by simp)).1
        rw [hpw] at h1
        exact h1
      unfold tryMatchAt
      have hfind : List.find? (fun q : String × List String =>
          matchAbbr none (w.toList ++ tail) q.1) (p :: rest) = some p := by
        apply List.find?_cons_of_pos
        exact hmatch
      rw [hfind]
      have hsyn : synonymsOf (p :: rest) w = p.2 := by
        unfold synonymsOf
        have hf2 : List.find? (fun q : String × List String =>
            q.1 = w) (p :: rest) = some p := by
          apply List.find?_cons_of_pos
          simp [hpw]
        rw [hf2]
      rw [hsyn]
      have hp : p = (w, p.2) := by
        rw [← hpw]
      exact congrArg some hp
    · have hmatch : matchAbbr none (w.toList ++ tail) p.1 = false :=
        matchAbbr_ne_false w p.1 tail none (htp p (by simp)).2 hwp htail hpw
      unfold tryMatchAt
      have hskip : List.find? (fun q : String × List String =>
          matchAbbr none (w.toList ++ tail) q.1) (p :: rest)
          = List.find? (fun q : String × List String =>
          matchAbbr none (w.toList ++ tail) q.1) rest := by
        apply List.find?_cons_of_neg
        show ¬ matchAbbr none (w.toList ++ tail) p.1 = true
        intro hcon
        rw [hmatch] at hcon
        exact Bool.false_ne_true hcon
      rw [hskip]
      have hmem2 : ∃ syns, (w, syns) ∈ rest := by
        obtain ⟨syns, hsy⟩ := hmem
        rcases List.mem_cons.mp hsy with heq | h
        · exact absurd (congrArg Prod.fst heq.symm) hpw
        · exact ⟨syns, h⟩
      have h2 := ih w tail hmem2 (fun q hq => htp q (List.mem_cons_of_mem p hq)) htail
      unfold tryMatchAt at h2
      rw [h2]
      have hsyn : synonymsOf (p :: rest) w = synonymsOf rest w := by
        unfold synonymsOf
        have hf2 : List.find? (fun q : String × List String =>
            q.1 = w) (p :: rest) = List.find? (fun q : String × List String =>
            q.1 = w) rest := by
          apply List.find?_cons_of_neg
          simp [hpw]
        rw [hf2]
      rw [hsyn]

/-- No abbreviation matches at a leading space. -/
theorem tryMatchAt_space_head (table : List (String × List String)) (prev : Option Char)
    (r : List Char)
    (htp : ∀ p ∈ table, p.1.toList ≠ [] ∧ ∀ c ∈ p.1.toList, ppPrintable c = true) :
    tryMatchAt table prev (' ' :: r) = none := by
  unfold tryMatchAt
  rw [List.find?_eq_none]
  intro p hp
  obtain ⟨hne2, hprint⟩ := htp p hp
  have hmf : matchAbbr prev (' ' :: r) p.1 = false := by
    unfold matchAbbr
    cases hal : p.1.toList with
    | nil => rfl
    | cons x xs =>
      dsimp only
      have hx : ppPrintable x = true := by
        apply hprint
        rw [hal]
        simp
      have hpf : (x :: xs).isPrefixOf (' ' :: r) = false := by
        cases h2 : (x :: xs).isPrefixOf (' ' :: r)
        · rfl
        · exfalso
          obtain ⟨t, ht⟩ := List.isPrefixOf_iff_prefix.mp h2
          rw [List.cons_append] at ht
          have hxsp : x = ' ' := by injection ht
          rw [hxsp, ppPrintable_space] at hx
          exact absurd hx (by simp)
      rw [hpf]
      rfl
  simp [hmf]

/-! ### The splitter reconstructs its input; the expander keeps the
pass-through combination -/

/-- Splitting never loses characters: the fragments concatenate back to
the input. -/
theorem joinFrags_scan (table : List (String × List String)) :
    ∀ (n : Nat) (cs : List Char) (prev : Option Char), cs.length ≤ n →
      joinFrags (scanFrags table prev cs) = cs := by
  intro n
  induction n with
  | zero =>
    intro cs prev h
    have hnil : cs = [] := List.eq_nil_of_length_eq_zero (Nat.le_zero.mp h)
    subst hnil
    rfl
  | succ m ih =>
    intro cs prev h
    cases cs with
    | nil => rfl
    | cons c rest =>
      rw [scanFrags_cons]
      cases hm : tryMatchAt table prev (c :: rest) with
      | none =>
        show c :: joinFrags (scanFrags table (some c) rest) = c :: rest
        simp only [List.length_cons] at h
        rw [ih rest (some c) (by omega)]
      | some p =>
        obtain ⟨a, syns⟩ := p
        obtain ⟨-, hane, hpre⟩ := tryMatchAt_eq_some table prev (c :: rest) (a, syns) hm
        dsimp only at hane hpre
        show a.toList ++ joinFrags (scanFrags table (some (a.toList.getLastD c))
          (rest.drop (a.toList.length - 1))) = c :: rest
        obtain ⟨t, ht⟩ := hpre
        simp only [List.length_cons] at h
        have hlen : 1 ≤ a.toList.length := by
          cases hal : a.toList with
          | nil => exact absurd hal hane
          | cons x xs => simp
        have hdrop : rest.drop (a.toList.length - 1) = t := by
          have h1 : (c :: rest).drop a.toList.length = t := by
            rw [← ht, List.drop_left]
          have h2 : (c :: rest).drop a.toList.length = rest.drop (a.toList.length - 1) := by
            have h3 : a.toList.length = (a.toList.length - 1) + 1 := by omega
            nth_rewrite 1 [h3]
            rw [List.drop_succ_cons]
          rw [← h2, h1]
        have hlt : t.length ≤ m := by
          have h4 := congrArg List.length ht
          simp only [List.length_append, List.length_cons] at h4
          omega
        rw [hdrop, ih t _ hlt]
        exact ht

/-- Keeping every literal (choosing no synonym anywhere) extends each
accumulated prefix by the raw fragment content. -/
theorem fragRendersAux_literal (table : List (String × List String)) :
    ∀ (fs : List Frag) (acc : List String) (s : String), s ∈ acc →
      (s ++ String.mk (joinFrags fs)) ∈ fragRendersAux table acc fs := by
  intro fs
  induction fs with
  | nil =>
    intro acc s hs
    show s ++ String.mk [] ∈ acc
    have h0 : s ++ String.mk [] = s := by
      apply String.ext
      simp [String.data_append]
    rw [h0]
    exact hs
  | cons f fs' ih =>
    intro acc s hs
    cases f with
    | plain c =>
      show s ++ String.mk (c :: joinFrags fs') ∈
        fragRendersAux table (acc.map fun x => x.push c) fs'
      have heq : s ++ String.mk (c :: joinFrags fs')
          = (s.push c) ++ String.mk (joinFrags fs') := by
        apply String.ext
        simp [String.data_append, String.data_push]
      rw [heq]
      exact ih _ _ (List.mem_map.mpr ⟨s, hs, rfl⟩)
    | abbr a =>
      show s ++ String.mk (a.toList ++ joinFrags fs') ∈ fragRendersAux table
        (acc.flatMap fun x => ((synonymsOf table a).map fun r => x ++ r) ++ [x ++ a]) fs'
      have heq : s ++ String.mk (a.toList ++ joinFrags fs')
          = (s ++ a) ++ String.mk (joinFrags fs') := by
        apply String.ext
        simp [String.data_append, String.toList]
      rw [heq]
      apply ih
      rw [List.mem_flatMap]
      refine ⟨s, hs, ?_⟩
      rw [List.mem_append, List.mem_singleton]
      exact Or.inr rfl

/-- Word set of the first `build_words` step on an abbreviation. -/
theorem wordset_repsFold (reps : List (String × Bool)) (v : String) :
    (∃ x ∈ reps.foldl (fun acc rp => addSW acc ⟨rp.1, rp.2⟩) [], x.word = v)
      ↔ ∃ rp ∈ reps, rp.1 = v := by
  have h1 : reps.foldl (fun acc rp => addSW acc ⟨rp.1, rp.2⟩) []
      = (reps.map fun rp => (⟨rp.1, rp.2⟩ : SourceWord)).foldl addSW [] := by
    rw [List.foldl_map]
  rw [h1, wordset_foldl_addSW]
  constructor
  · rintro (⟨x, hx, -⟩ | ⟨x, hx, hxv⟩)
    · simp at hx
    · rw [List.mem_map] at hx
      obtain ⟨rp, hrp, rfl⟩ := hx
      exact ⟨rp, hrp, hxv⟩
  · rintro ⟨rp, hrp, hrpv⟩
    right
    exact ⟨⟨rp.1, rp.2⟩, List.mem_map.mpr ⟨rp, hrp, rfl⟩, hrpv⟩

/-- The expander never loses a word: each expanded candidate yields
itself (the combination that keeps every literal). -/
theorem expandWord_contains_self (lang : String) (u : String) (hne : u.toList ≠ []) :
    ∃ z ∈ expandWord lang u, z.word = u := by
  have hj := joinFrags_scan (abbreviations_synonyms lang) u.toList.length u.toList none
    (le_refl _)
  unfold expandWord
  cases hf : scanFrags (abbreviations_synonyms lang) none u.toList with
  | nil =>
    exfalso
    rw [hf] at hj
    exact hne hj.symm
  | cons f fs =>
    rw [hf] at hj
    cases f with
    | plain c =>
      have hb : buildWords (abbreviations_synonyms lang) none (Frag.plain c :: fs)
          = buildWords (abbreviations_synonyms lang)
            (some [⟨String.singleton c, false⟩]) fs := rfl
      have hrep : ∀ v, (∃ x ∈ [(⟨String.singleton c, false⟩ : SourceWord)], x.word = v) ↔
          v ∈ [String.singleton c] := by
        intro v
        constructor
        · rintro ⟨x, hx, hxv⟩
          rw [List.mem_singleton] at hx
          subst hx
          rw [List.mem_singleton]
          exact hxv.symm
        · intro hv
          rw [List.mem_singleton] at hv
          exact ⟨⟨String.singleton c, false⟩, List.mem_singleton.mpr rfl, hv.symm⟩
      have heq : String.singleton c ++ String.mk (joinFrags fs) = u := by
        apply String.ext
        exact hj
      have hlit := fragRendersAux_literal (abbreviations_synonyms lang) fs
        [String.singleton c] (String.singleton c) (List.mem_singleton.mpr rfl)
      rw [heq] at hlit
      have hmain := (buildWords_words (abbreviations_synonyms lang) fs _ _ hrep u).mpr hlit
      rw [hb]
      cases hbw : buildWords (abbreviations_synonyms lang)
          (some [⟨String.singleton c, false⟩]) fs with
      | none =>
        rw [hbw] at hmain
        obtain ⟨z, hz, -⟩ := hmain
        simp at hz
      | some l =>
        rw [hbw] at hmain
        simpa using hmain
    | abbr a =>
      have hb : buildWords (abbreviations_synonyms lang) none (Frag.abbr a :: fs)
          = buildWords (abbreviations_synonyms lang)
            (some ((repsFor a (synonymsOf (abbreviations_synonyms lang) a)).foldl
              (fun acc rp => addSW acc ⟨rp.1, rp.2⟩) [])) fs := rfl
      have hrep : ∀ v, (∃ x ∈ (repsFor a (synonymsOf (abbreviations_synonyms lang) a)).foldl
          (fun acc rp => addSW acc ⟨rp.1, rp.2⟩) [], x.word = v) ↔
          v ∈ synonymsOf (abbreviations_synonyms lang) a ++ [a] := by
        intro v
        rw [wordset_repsFold]
        unfold repsFor
        constructor
        · rintro ⟨rp, hrp, rfl⟩
          rw [List.mem_append, List.mem_map, List.mem_singleton] at hrp
          rw [List.mem_append, List.mem_singleton]
          rcases hrp with ⟨r, hr, rfl⟩ | rfl
          · exact Or.inl hr
          · exact Or.inr rfl
        · intro hv
          rw [List.mem_append, List.mem_singleton] at hv
          rcases hv with hv | hva
          · refine ⟨(v, true), ?_, rfl⟩
            rw [List.mem_append, List.mem_map]
            exact Or.inl ⟨v, hv, rfl⟩
          · refine ⟨(a, false), ?_, hva.symm⟩
            rw [List.mem_append, List.mem_singleton]
            exact Or.inr rfl
      have heq : a ++ String.mk (joinFrags fs) = u := by
        apply String.ext
        exact hj
      have hsmem : a ∈ synonymsOf (abbreviations_synonyms lang) a ++ [a] := by
        rw [List.mem_append, List.mem_singleton]
        exact Or.inr rfl
      have hlit := fragRendersAux_literal (abbreviations_synonyms lang) fs
        (synonymsOf (abbreviations_synonyms lang) a ++ [a]) a hsmem
      rw [heq] at hlit
      have hmain := (buildWords_words (abbreviations_synonyms lang) fs _ _ hrep u).mpr hlit
      rw [hb]
      cases hbw : buildWords (abbreviations_synonyms lang)
          (some ((repsFor a (synonymsOf (abbreviations_synonyms lang) a)).foldl
            (fun acc rp => addSW acc ⟨rp.1, rp.2⟩) [])) fs with
      | none =>
        rw [hbw] at hmain
        obtain ⟨z, hz, -⟩ := hmain
        simp at hz
      | some l =>
        rw [hbw] at hmain
        simpa using hmain

/-! ### Idempotence of whitespace normalization -/

/-- Every piece of a whitespace split is whitespace-free. -/
theorem splitWsAux_no_white : ∀ (cs cur : List Char),
    (∀ c ∈ cur, pySpace c = false) →
    ∀ p ∈ splitWsAux cur cs, ∀ c ∈ p, pySpace c = false := by
  intro cs
  induction cs with
  | nil =>
    intro cur hcur p hp
    by_cases h : cur.isEmpty
    · simp [splitWsAux, h] at hp
    · simp only [splitWsAux, h, Bool.false_eq_true, if_false, List.mem_singleton] at hp
      subst hp
      intro c hc
      exact hcur c (List.mem_reverse.mp hc)
  | cons c rest ih =>
    intro cur hcur p hp
    by_cases hw : pySpace c
    · by_cases h : cur.isEmpty
      · simp only [splitWsAux, hw, if_true, h] at hp
        exact ih [] (by simp) p hp
      · simp only [splitWsAux, hw, if_true, h, Bool.false_eq_true, if_false,
          List.mem_cons] at hp
        rcases hp with rfl | hp
        · intro d hd
          exact hcur d (List.mem_reverse.mp hd)
        · exact ih [] (by simp) p hp
    · simp only [splitWsAux, hw, Bool.false_eq_true, if_false] at hp
      have hcur2 : ∀ d ∈ c :: cur, pySpace d = false := by
        intro d hd
        rcases List.mem_cons.mp hd with rfl | hd2
        · simpa using hw
        · exact hcur d hd2
      exact ih (c :: cur) hcur2 p hp

/-- Splitting a space-joined list of nonempty whitespace-free pieces
recovers the pieces. -/
theorem splitWs_join : ∀ (ps : List (List Char)) (p : List Char),
    p ≠ [] → (∀ c ∈ p, pySpace c = false) →
    (∀ q ∈ ps, q ≠ [] ∧ ∀ c ∈ q, pySpace c = false) →
    splitWs (p ++ joinSpTail ps) = p :: ps := by
  intro ps
  induction ps with
  | nil =>
    intro p hne hnw _
    show splitWs (p ++ []) = [p]
    rw [List.append_nil]
    exact splitWs_no_white p hne hnw
  | cons q qs ih =>
    intro p hne hnw hq
    show splitWs (p ++ ' ' :: (q ++ joinSpTail qs)) = p :: q :: qs
    rw [splitWs_word_space p _ hne hnw]
    congr 1
    exact ih q (hq q (by simp)).1 (hq q (by simp)).2
      fun r hr => hq r (List.mem_cons_of_mem q hr)

/-- `" ".join(s.split())` is idempotent. -/
theorem normalizeWs_idem (s : String) : normalizeWs (normalizeWs s) = normalizeWs s := by
  cases h : splitWs s.toList with
  | nil =>
    have h1 : normalizeWs s = "" := by
      unfold normalizeWs
      rw [h]
    rw [h1]
    rfl
  | cons p ps =>
    have hmem : ∀ q ∈ p :: ps, q ≠ [] ∧ ∀ c ∈ q, pySpace c = false := by
      intro q hq
      rw [← h] at hq
      exact ⟨mem_splitWsAux_ne_nil s.toList [] q hq,
        splitWsAux_no_white s.toList [] (by simp) q hq⟩
    have h1 : normalizeWs s = String.mk (p ++ joinSpTail ps) := by
      unfold normalizeWs
      rw [h]
    rw [h1]
    unfold normalizeWs
    have h2 : splitWs (String.mk (p ++ joinSpTail ps)).toList = p :: ps := by
      show splitWs (p ++ joinSpTail ps) = p :: ps
      exact splitWs_join ps p (hmem p (by simp)).1 (hmem p (by simp)).2
        fun q hq => hmem q (List.mem_cons_of_mem p hq)
    rw [h2]

/-! ### Claim C1: unbalanced brackets -/

/-- C1 is false on the code: `parse_tokens` calls pyparsing's
`parse_string` without `parse_all=True`, so an unmatched opening bracket
is not a fatal parse failure.  On the phrase `"(abc"` the tokenizer
silently consumes nothing (the whole phrase remains unparsed) and the
phrase contributes an empty candidate set — it is silently dropped,
and no `UnbalancedBracket` error is ever signalled. -/
theorem c1_counterexample :
    parse_tokens "(abc" = ([], "(abc") ∧
    get_possible_source_words "(abc" none "en" = [] := ⟨rfl, rfl⟩

/-- C1 amended: an unmatched opening bracket is not an error; parsing
stops in front of it and the rest of the phrase is silently truncated
(`"abc (def"` keeps only `abc`).  An unmatched closing bracket at top
level is not an error either: it is consumed as an ordinary word
character (`"abc) d"` parses fully, the `)` inside the first word). -/
theorem c1_truncation_not_error :
    parse_tokens "abc (def" = ([Token.word "abc"], "(def") ∧
    possibleSourceStrings "abc (def" none "en" = ["abc"] ∧
    parse_tokens "abc) d" = ([Token.word "abc)", Token.word "d"], "") :=
  ⟨rfl, rfl, rfl⟩

/-! ### Claim C2: the usedSubstitution flag is not OR-accumulated -/

/-- C2 is false on the code: the flag attached to a candidate string
depends on the enumeration order of the `source_words` set.  The phrase
`"(somebody) sb."` yields the candidate set
 `{"somebody sb.", "sb.", "somebody"}`; the string `"somebody"` is
produced both by a substitution path (expanding `"sb."`) and by a
non-substitution path (passing `"somebody"` through).  `return_words`
keeps the first `SourceWord` inserted for a given string, so under one
enumeration order the final flag is `false` and under another it is
`true` — not the OR over all generation paths. -/
theorem c2_counterexample :
    (["somebody", "somebody sb.", "sb."] : List String).Perm
        (source_word_candidates "(somebody) sb." none "en") ∧
    SourceWord.mk "somebody" true ∈ expandWord "en" "sb." ∧
    (expandStage "en" ["somebody", "somebody sb.", "sb."]).find?
        (fun x => x.word = "somebody") = some ⟨"somebody", false⟩ ∧
    (expandStage "en" ["sb.", "somebody sb.", "somebody"]).find?
        (fun x => x.word = "somebody") = some ⟨"somebody", true⟩ :=
  ⟨by decide, by decide, rfl, rfl⟩

/-- C2 amended: the flag on a given string is the flag of the first
generation path that produced that string, in enumeration order of the
candidate set (first insertion wins; it is not OR-accumulated and is
therefore order-dependent). -/
theorem c2_flag_first_path_wins (lang : String) (ws : List String) :
    expandStage lang ws = dedupSW ((ws.map (expandWord lang)).flatten) := by
  have key : ∀ (ws : List String) (acc : List SourceWord),
      ws.foldl (fun acc w => (expandWord lang w).foldl addSW acc) acc =
        ((ws.map (expandWord lang)).flatten).foldl addSW acc := by
    intro ws
    induction ws with
    | nil => intro acc; rfl
    | cons w ws ih =>
      intro acc
      simp only [List.map_cons, List.flatten_cons, List.foldl_cons, List.foldl_append]
      exact ih _
  exact key ws []

/-! ### Claim C3 (counterexample): all-round phrases -/

/-- C3 is false as stated: the phrase `"(abc)"` has one top-level round
segment and no abbreviations, but yields 1 candidate, not `2 ^ 1 = 2`,
and the two subset renderings `"abc"` and `""` do not collide — the
empty rendering is dropped, not merged.  A `Word` segment alone does
not restore the count: in `"\r (b)"` the word `"\r"` is all-whitespace
to `str.split` (though not to pyparsing), every rendering that drops
the round segment normalizes to empty, and the phrase again yields 1
candidate instead of 2 with no collision. -/
theorem c3_counterexample :
    (parse_tokens "(abc)").1 = [Token.round "abc"] ∧
    candidatesFromTokens [Token.round "abc"] none "en" = ["abc"] ∧
    renderChoice none [Token.round "abc"] [true] = some "abc" ∧
    renderChoice none [Token.round "abc"] [false] = some "" ∧
    (candidatesFromTokens [Token.round "abc"] none "en").length ≠ 2 ^ 1 ∧
    (parse_tokens "\r (b)").1 = [Token.word "\r", Token.round "b"] ∧
    pySpace '\r' = true ∧
    candidatesFromTokens [Token.word "\r", Token.round "b"] none "en" = ["b"] ∧
    (candidatesFromTokens [Token.word "\r", Token.round "b"] none "en").length ≠ 2 ^ 1 :=
  ⟨rfl, rfl, rfl, rfl, by decide, rfl, by decide, rfl, by decide⟩

/-! ### Claim C6: the "to help sb." scenario -/

/-- C6: the full pipeline on phrase `"to help sb."`, class `verb`,
language `en` produces exactly the candidate set
`{"to help", "help", "to help sb.", "help sb.", "to help somebody",
"help somebody"}`. -/
theorem c6_to_help_sb :
    possibleSourceStrings "to help sb." (some "verb") "en" =
      ["to help somebody", "to help sb.", "help somebody", "help sb.", "to help", "help"] ∧
    (possibleSourceStrings "to help sb." (some "verb") "en").Perm
      ["to help", "help", "to help sb.", "help sb.", "to help somebody", "help somebody"] :=
  ⟨rfl, by decide⟩

/-! ### Claim C8 (counterexample): second expander run -/

/-- C8 is false on the code: running the expander a second time on the
string set of its own output preserves the strings but recomputes the
flags from the bare strings.  For the candidate set `{"help sb."}` the
first run returns `"help somebody"` tagged `usedSubstitution = true`;
feeding the output strings back in returns the same two strings but
`"help somebody"` now carries `usedSubstitution = false` (its
pass-through path is enumerated first), so the output set is not
unchanged. -/
theorem c8_counterexample :
    finalizeWords (expandStage "en" ["help sb."]) =
      [⟨"help somebody", true⟩, ⟨"help sb.", false⟩] ∧
    finalizeWords (expandStage "en"
        ((finalizeWords (expandStage "en" ["help sb."])).map (·.word))) =
      [⟨"help somebody", false⟩, ⟨"help sb.", false⟩] := ⟨rfl, rfl⟩

/-- C8 amended: the expander's second run on its own output is not a
no-op — the `usedSubstitution` flags are recomputed from the bare
strings, as the counterexample shows — but it never loses a string:
every word of `finalizeWords (expandStage lang S)` reappears among the
words of the second run on the output's own string set.  Each string
re-derives itself through the combination that keeps every literal, and
whitespace normalization is idempotent, so renormalization is the
identity on already-normalized output. -/
theorem c8_second_run_keeps_strings (lang : String) (S : List String) (u : String)
    (hu : ∃ x ∈ finalizeWords (expandStage lang S), x.word = u) :
    ∃ y ∈ finalizeWords (expandStage lang
        ((finalizeWords (expandStage lang S)).map fun x => x.word)), y.word = u := by
  obtain ⟨hx0, hne⟩ := (finalize_words (expandStage lang S) u).mp hu
  obtain ⟨x, hx, hxn⟩ := hx0
  have hunil : u.toList ≠ [] := by
    intro h0
    apply hne
    apply String.ext
    exact h0
  have humem : u ∈ (finalizeWords (expandStage lang S)).map fun x => x.word := by
    obtain ⟨x0, hx0b, hx0w⟩ := hu
    exact List.mem_map.mpr ⟨x0, hx0b, hx0w⟩
  apply (finalize_words _ u).mpr
  refine ⟨?_, hne⟩
  obtain ⟨z, hz2, hzw⟩ := (expandStage_words lang _ u).mpr
    ⟨u, humem, expandWord_contains_self lang u hunil⟩
  refine ⟨z, hz2, ?_⟩
  rw [hzw, ← hxn]
  exact normalizeWs_idem x.word

/-- Witness for `c8_second_run_keeps_strings`: the tagged output string
`"help somebody"` of the run on `{"help sb."}` survives the second
run. -/
theorem c8_second_run_keeps_strings_witness :
    ∃ y ∈ finalizeWords (expandStage "en"
        ((finalizeWords (expandStage "en" ["help sb."])).map fun x => x.word)),
      y.word = "help somebody" :=
  c8_second_run_keeps_strings "en" ["help sb."] "help somebody"
    ⟨⟨"help somebody", true⟩, by decide, rfl⟩

/-! ### Claim C9 (counterexample): lone end-optional word -/

/-- C9 is false as stated: `"(go to) sb."` is a phrase whose only `Word`
segment (`sb.`) matches the English end-optional set, yet the candidate
set contains `"go to"`, a variant with the abbreviation omitted —
the preceding round segment creates prior partial strings, so the
end-drop branch does contribute. -/
theorem c9_counterexample :
    (parse_tokens "(go to) sb.").1 = [Token.round "go to", Token.word "sb."] ∧
    "go to" ∈ possibleSourceStrings "(go to) sb." none "en" ∧
    ¬ ("sb.".toList <:+: "go to".toList) ∧
    ¬ ("somebody".toList <:+: "go to".toList) :=
  ⟨rfl, by decide, by decide, by decide⟩

/-! ### Claim C9 (amended theorem): without round segments the
abbreviation is never dropped -/

theorem genStep_ignored (hasAbbr : Bool) (startS endS : List String) (st : GenSt)
    (t : Token) (wa : Bool) (h : ignoredTok t = true) :
    genStep hasAbbr startS endS st t wa = st := by
  cases t with
  | word w => simp [ignoredTok] at h
  | round v => simp [ignoredTok] at h
  | square v => rfl
  | curly v => rfl
  | angle v => rfl

theorem genWalk_skip_ignored (hasAbbr : Bool) (startS endS : List String) :
    ∀ (pre : List Token) (st : GenSt) (rest : List Token),
      (∀ t ∈ pre, ignoredTok t = true) →
      genWalk hasAbbr startS endS st (pre ++ rest) = genWalk hasAbbr startS endS st rest := by
  intro pre
  induction pre with
  | nil => intro st rest _; rfl
  | cons t pre' ih =>
    intro st rest hall
    rw [List.cons_append, genWalk_cons,
      genStep_ignored _ _ _ _ _ _ (hall t (by simp))]
    exact ih st rest fun u hu => hall u (List.mem_cons_of_mem t hu)

theorem genWalk_ignored_all (hasAbbr : Bool) (startS endS : List String)
    (post : List Token) (st : GenSt) (h : ∀ t ∈ post, ignoredTok t = true) :
    genWalk hasAbbr startS endS st post = st := by
  have h2 := genWalk_skip_ignored hasAbbr startS endS post st [] h
  rw [List.append_nil] at h2
  exact h2

theorem hasWordTok_ignored (post : List Token) (h : ∀ t ∈ post, ignoredTok t = true) :
    hasWordTok post = false := by
  unfold hasWordTok
  rw [List.any_eq_false]
  intro t ht
  have h2 := h t ht
  cases t with
  | word w => exact absurd h2 (by simp [ignoredTok])
  | round v => simp
  | square v => simp
  | curly v => simp
  | angle v => simp

/-- A phrase whose only non-ignored token is a single end-optional word
generates exactly that word: the end-drop branch fires with
`source_words = None`, so nothing is dropped and no empty variant is
added. -/
theorem candidates_only_end_word (lang : String) (wc : Option String) (w : String)
    (pre post : List Token)
    (hpre : ∀ t ∈ pre, ignoredTok t = true)
    (hpost : ∀ t ∈ post, ignoredTok t = true)
    (hab : hasOptionalTables lang = true)
    (hend : (endOptional lang).contains w = true)
    (hne : normalizeWs w ≠ "") :
    candidatesFromTokens (pre ++ Token.word w :: post) wc lang = [normalizeWs w] := by
  have hstep : genStep (hasOptionalTables lang) (startOptional lang wc)
      (endOptional lang) ⟨none, [], false⟩ (Token.word w) false = ⟨some [w], [], true⟩ := by
    unfold genStep
    dsimp only
    rw [hab, hend]
    rfl
  have hwalk : genWalk (hasOptionalTables lang) (startOptional lang wc) (endOptional lang)
      ⟨none, [], false⟩ (pre ++ Token.word w :: post) = ⟨some [w], [], true⟩ := by
    rw [genWalk_skip_ignored _ _ _ pre _ _ hpre, genWalk_cons,
      hasWordTok_ignored post hpost, hstep]
    exact genWalk_ignored_all _ _ _ post _ hpost
  unfold candidatesFromTokens
  rw [hwalk]
  show dedupStr ((List.map normalizeWs [w]).filter fun s => s ≠ "") = [normalizeWs w]
  simp [dedupStr, unionStr, addStr, hne]

/-- The full pipeline on such a phrase is the expander on the lone
word. -/
theorem gp_only_end_word (lang : String) (wc : Option String) (w : String)
    (pre post : List Token)
    (hpre : ∀ t ∈ pre, ignoredTok t = true)
    (hpost : ∀ t ∈ post, ignoredTok t = true)
    (hab : hasOptionalTables lang = true)
    (hsyn : hasSynonymTable lang = true)
    (hend : (endOptional lang).contains w = true)
    (hne : normalizeWs w ≠ "") :
    get_possible_from_tokens (pre ++ Token.word w :: post) wc lang
      = finalizeWords (expandStage lang [normalizeWs w]) := by
  unfold get_possible_from_tokens
  rw [candidates_only_end_word lang wc w pre post hpre hpost hab hend hne]
  dsimp only
  rw [hsyn]
  rfl

/-- C9 amended: for a phrase whose only `Word` segment matches the
end-optional abbreviation set and whose remaining segments are all
square/curly/angle (in particular, no round segment creates prior
partial strings), the end-drop branch contributes nothing: the
pipeline's output is exactly the abbreviation itself (untagged) plus its
synonym expansions (tagged), and no variant with the abbreviation
omitted exists.  The restriction to round-free phrases is forced:
`"(go to) sb."` puts the dropped variant `"go to"` into the output. -/
theorem c9_end_abbreviation_kept (lang : String) (word_class : Option String)
    (w : String) (pre post : List Token)
    (hpre : ∀ t ∈ pre, ignoredTok t = true)
    (hpost : ∀ t ∈ post, ignoredTok t = true)
    (hlang : lang = "en" ∨ lang = "de")
    (hw : w ∈ endOptional lang) :
    ((get_possible_from_tokens (pre ++ Token.word w :: post) word_class lang).map
        fun x => x.word)
      = synonymsOf (abbreviations_synonyms lang) w ++ [w] ∧
    ∀ x ∈ get_possible_from_tokens (pre ++ Token.word w :: post) word_class lang,
      (x.has_replacements = false ↔ x.word = w) := by
  rcases hlang with rfl | rfl
  · have hw2 : w = "sth." ∨ w = "sb." ∨ w = "sb.'s" ∨ w = "sb./sth." := by
      simpa [endOptional, enBaseAbbrevs] using hw
    rcases hw2 with rfl | rfl | rfl | rfl
    · rw [gp_only_end_word "en" word_class "sth." pre post hpre hpost rfl rfl
        (by decide) (by decide)]
      exact ⟨by decide, by decide⟩
    · rw [gp_only_end_word "en" word_class "sb." pre post hpre hpost rfl rfl
        (by decide) (by decide)]
      exact ⟨by decide, by decide⟩
    · rw [gp_only_end_word "en" word_class "sb.'s" pre post hpre hpost rfl rfl
        (by decide) (by decide)]
      exact ⟨by decide, by decide⟩
    · rw [gp_only_end_word "en" word_class "sb./sth." pre post hpre hpost rfl rfl
        (by decide) (by decide)]
      exact ⟨by decide, by decide⟩
  · have hw2 : w = "jd." ∨ w = "jds." ∨ w = "jdm." ∨ w = "jdn." ∨ w = "etw." ∨
        w = "jd./etw." ∨ w = "jds./etw." ∨ w = "jdm./etw." ∨ w = "jdn./etw." := by
      simpa [endOptional, deBaseAbbrevs] using hw
    rcases hw2 with rfl | rfl | rfl | rfl | rfl | rfl | rfl | rfl | rfl
    · rw [gp_only_end_word "de" word_class "jd." pre post hpre hpost rfl rfl
        (by decide) (by decide)]
      exact ⟨by decide, by decide⟩
    · rw [gp_only_end_word "de" word_class "jds." pre post hpre hpost rfl rfl
        (by decide) (by decide)]
      exact ⟨by decide, by decide⟩
    · rw [gp_only_end_word "de" word_class "jdm." pre post hpre hpost rfl rfl
        (by decide) (by decide)]
      exact ⟨by decide, by decide⟩
    · rw [gp_only_end_word "de" word_class "jdn." pre post hpre hpost rfl rfl
        (by decide) (by decide)]
      exact ⟨by decide, by decide⟩
    · rw [gp_only_end_word "de" word_class "etw." pre post hpre hpost rfl rfl
        (by decide) (by decide)]
      exact ⟨by decide, by decide⟩
    · rw [gp_only_end_word "de" word_class "jd./etw." pre post hpre hpost rfl rfl
        (by decide) (by decide)]
      exact ⟨by decide, by decide⟩
    · rw [gp_only_end_word "de" word_class "jds./etw." pre post hpre hpost rfl rfl
        (by decide) (by decide)]
      exact ⟨by decide, by decide⟩
    · rw [gp_only_end_word "de" word_class "jdm./etw." pre post hpre hpost rfl rfl
        (by decide) (by decide)]
      exact ⟨by decide, by decide⟩
    · rw [gp_only_end_word "de" word_class "jdn./etw." pre post hpre hpost rfl rfl
        (by decide) (by decide)]
      exact ⟨by decide, by decide⟩

/-- Witness for `c9_end_abbreviation_kept`: the phrase
`"[Am.] sb."` (a square segment plus the lone word `sb.`) yields
exactly `somebody` (tagged) and `sb.` (untagged). -/
theorem c9_end_abbreviation_kept_witness :
    ((get_possible_from_tokens ([Token.square "Am."] ++ Token.word "sb." :: [])
        none "en").map fun x => x.word) = ["somebody", "sb."] ∧
    ∀ x ∈ get_possible_from_tokens ([Token.square "Am."] ++ Token.word "sb." :: [])
        none "en", (x.has_replacements = false ↔ x.word = "sb.") := by
  have h := c9_end_abbreviation_kept "en" none "sb." [Token.square "Am."] []
    (by decide) (by decide) (Or.inl rfl) (by decide)
  refine ⟨?_, h.2⟩
  rw [h.1]
  decide

/-! ### Claim C10: whole-word matching -/

/-- C10 is false in full generality: pyparsing's word boundaries use the
ASCII `printables` class, so a non-ASCII neighbour does not block
recognition.  In `"sb.ä"` the occurrence of `sb.` is immediately
followed by the printable non-space character `ä`, yet it is recognized
and substituted (`"somebodyä"`, tagged), instead of passing through
unchanged with `usedSubstitution = false`. -/
theorem c10_counterexample :
    SourceWord.mk "somebodyä" true ∈ expandWord "en" "sb.ä" ∧
    expandWord "en" "sb.ä" ≠ [⟨"sb.ä", false⟩] ∧
    ¬ ('ä'.isWhitespace) := ⟨by decide, by decide, by decide⟩

/-- C10 amended: an abbreviation occurrence is recognized only when
delimited by the string ends or characters outside pyparsing's ASCII
`printables` class (e.g. whitespace); a string in which no table
abbreviation matches at any position — in particular one whose only
abbreviation occurrences sit next to ASCII printable characters such as
a comma — passes through the expander unchanged, with
`usedSubstitution = false`. -/
theorem c10_adjacent_printable_blocks (lang : String) (s : String)
    (hne : s.toList ≠ [])
    (h : ∀ i, i < s.toList.length →
      tryMatchAt (abbreviations_synonyms lang)
        (if i = 0 then none else s.toList.get? (i - 1)) (s.toList.drop i) = none) :
    expandWord lang s = [⟨s, false⟩] := by
  unfold expandWord
  rw [scanFrags_all_plain _ _ _ h]
  cases hcs : s.toList with
  | nil => exact absurd hcs hne
  | cons c cs =>
    rw [buildWords_plain_none]
    have hs : String.mk (c :: cs) = s := by
      apply String.ext
      exact hcs.symm
    rw [hs]

/-- Witness for `c10_adjacent_printable_blocks`: `"help sb.,"` — the
`sb.` occurrence is followed by a comma, so the string passes through
unchanged and untagged. -/
theorem c10_adjacent_printable_blocks_witness :
    expandWord "en" "help sb.," = [⟨"help sb.,", false⟩] :=
  c10_adjacent_printable_blocks "en" "help sb.," (by decide) (by decide)

/-! ### Claim C7: square/curly/angle segments are invisible -/

/-- Related token lists have a `Word` token in the same positions. -/
theorem hasWordTok_eq_of_same :
    ∀ (ts ts' : List Token), sameModIgnoredList ts ts' = true →
      hasWordTok ts = hasWordTok ts' := by
  intro ts
  induction ts with
  | nil =>
    intro ts' h
    cases ts' with
    | nil => rfl
    | cons b bs => simp [sameModIgnoredList] at h
  | cons a as ih =>
    intro ts' h
    cases ts' with
    | nil => simp [sameModIgnoredList] at h
    | cons b bs =>
      simp only [sameModIgnoredList, Bool.and_eq_true] at h
      obtain ⟨hab, hrest⟩ := h
      simp only [hasWordTok, List.any_cons]
      rw [show (as.any fun t => match t with | .word _ => true | _ => false) =
        hasWordTok as from rfl]
      rw [show (bs.any fun t => match t with | .word _ => true | _ => false) =
        hasWordTok bs from rfl]
      rw [ih bs hrest]
      cases a <;> cases b <;> simp_all [sameModIgnored]

/-- The generator walk does not depend on the inner text of
square/curly/angle segments. -/
theorem genWalk_eq_of_same (hasAbbr : Bool) (startS endS : List String) :
    ∀ (ts ts' : List Token), sameModIgnoredList ts ts' = true →
      ∀ st, genWalk hasAbbr startS endS st ts = genWalk hasAbbr startS endS st ts' := by
  intro ts
  induction ts with
  | nil =>
    intro ts' h st
    cases ts' with
    | nil => rfl
    | cons b bs => simp [sameModIgnoredList] at h
  | cons a as ih =>
    intro ts' h st
    cases ts' with
    | nil => simp [sameModIgnoredList] at h
    | cons b bs =>
      simp only [sameModIgnoredList, Bool.and_eq_true] at h
      obtain ⟨hab, hrest⟩ := h
      show genWalk hasAbbr startS endS (genStep hasAbbr startS endS st a (hasWordTok as)) as =
        genWalk hasAbbr startS endS (genStep hasAbbr startS endS st b (hasWordTok bs)) bs
      have hw : hasWordTok as = hasWordTok bs := hasWordTok_eq_of_same as bs hrest
      have hstep : genStep hasAbbr startS endS st a (hasWordTok as) =
          genStep hasAbbr startS endS st b (hasWordTok bs) := by
        cases a <;> cases b <;> simp_all [sameModIgnored] <;> simp [genStep]
      rw [hstep]
      exact ih bs hrest _

/-- C7: replacing the inner text of any square-, curly-, or
angle-bracket segment by different (well-formed) content — i.e. any two
phrases whose token sequences agree except on the inner text of those
segment kinds — leaves the generated candidate set unchanged. -/
theorem c7_non_round_invisible (p1 p2 : String) (wc : Option String) (lang : String)
    (h : sameModIgnoredList (parse_tokens p1).1 (parse_tokens p2).1 = true) :
    get_possible_source_words p1 wc lang = get_possible_source_words p2 wc lang := by
  unfold get_possible_source_words get_possible_from_tokens
  have hcand : candidatesFromTokens (parse_tokens p1).1 wc lang =
      candidatesFromTokens (parse_tokens p2).1 wc lang := by
    unfold candidatesFromTokens
    rw [genWalk_eq_of_same (hasOptionalTables lang) (startOptional lang wc)
      (endOptional lang) _ _ h]
  rw [hcand]

/-- Witness for `c7_non_round_invisible`: `"a [x] b"` versus
`"a [y z] b"` (different square-bracket content, same candidates). -/
theorem c7_non_round_invisible_witness :
    get_possible_source_words "a [x] b" none "en" =
      get_possible_source_words "a [y z] b" none "en" :=
  c7_non_round_invisible "a [x] b" "a [y z] b" none "en" (by decide)

/-! ### Claim C5: per-key translation ranking -/

/-- C5: the per-key merge returns the surviving translations of the key
(a permutation of the deduplicated, prioritized pairs), ordered by class
priority (`adj` 0, `verb` 1, `noun` 2, anything else 3), breaking ties
by the lowercased text and then by case-sensitive lexical order, as one
canonical tuple per key.  The statement is proven for every lowercasing
function `low`; the program's ranking is the instance at
`low = Python str.lower` (full Unicode case mapping, which the model
does not re-implement), where the `low`-tie-break is exactly the code's
case-insensitive ordering. -/
theorem c5_translation_ranking (low : String → String)
    (ts : List (Option String × String)) :
    (per_key_merge low ts).Perm (prioritizedTranslations ts) ∧
    List.Sorted (fun a b : String × Nat =>
      a.2 < b.2 ∨ (a.2 = b.2 ∧ (low a.1 < low b.1 ∨
        (low a.1 = low b.1 ∧ a.1 ≤ b.1)))) (per_key_merge low ts) ∧
    per_key_translations low ts = (per_key_merge low ts).map Prod.fst ∧
    classPriority (some "adj") = 0 ∧ classPriority (some "verb") = 1 ∧
    classPriority (some "noun") = 2 ∧ classPriority none = 3 ∧
    (∀ wc : String, wc ≠ "adj" → wc ≠ "verb" → wc ≠ "noun" →
      classPriority (some wc) = 3) := by
  refine ⟨List.perm_insertionSort (transLE low) _, ?_, rfl, rfl, rfl, rfl, rfl, ?_⟩
  · have hs := List.sorted_insertionSort (transLE low) (prioritizedTranslations ts)
    apply List.Pairwise.imp _ hs
    intro a b hab
    have h1 := (Prod.Lex.le_iff (a.2, toLex (low a.1, a.1))
      (b.2, toLex (low b.1, b.1))).mp hab
    rcases h1 with h1 | ⟨h1, h2⟩
    · exact Or.inl h1
    · refine Or.inr ⟨h1, ?_⟩
      have h3 := (Prod.Lex.le_iff (low a.1, a.1) (low b.1, b.1)).mp h2
      rcases h3 with h3 | ⟨h3, h4⟩
      · exact Or.inl h3
      · exact Or.inr ⟨h3, h4⟩
  · intro wc h1 h2 h3
    simp [classPriority, h1, h2, h3]

/-! ### Claim C4: canonical key of a meaning group -/

/-- C4: every nonempty meaning group yields exactly one canonical key
and the list of remaining alternates; the canonical key is minimal for
the order "prefer `usedSubstitution = false`, then longest string", and
it is non-substituted whenever at least one member of the group is. -/
theorem c4_canonical_key (g : List (String × Bool)) (hne : g ≠ []) :
    ∃ c alts, pickCanonical g = some (c, alts) ∧
      c ∈ g ∧ alts = g.erase c ∧ alts.length + 1 = g.length ∧
      (∀ x ∈ g, (c.2 = false ∧ x.2 = true) ∨ (c.2 = x.2 ∧ x.1.length ≤ c.1.length)) ∧
      ((∃ x ∈ g, x.2 = false) → c.2 = false) := by
  have hperm := List.perm_insertionSort canonLE g
  cases hsort : List.insertionSort canonLE g with
  | nil =>
    rw [hsort] at hperm
    exact absurd (hperm.nil_eq.symm) hne
  | cons c rest =>
    rw [hsort] at hperm
    have hcg : c ∈ g := hperm.mem_iff.mp (List.mem_cons_self c rest)
    have hmin : ∀ x ∈ g, canonLE c x := by
      intro x hx
      have hx' : x ∈ c :: rest := hperm.mem_iff.mpr hx
      rcases List.mem_cons.mp hx' with h | h
      · rw [h]; exact le_refl (canonKey c)
      · have hs := List.sorted_insertionSort canonLE g
        rw [hsort] at hs
        exact List.rel_of_sorted_cons hs x h
    have hexp : ∀ x ∈ g,
        (c.2 = false ∧ x.2 = true) ∨ (c.2 = x.2 ∧ x.1.length ≤ c.1.length) := by
      intro x hx
      have h := (Prod.Lex.le_iff ((cond c.2 1 0 : Nat), OrderDual.toDual c.1.length)
        ((cond x.2 1 0 : Nat), OrderDual.toDual x.1.length)).mp (hmin x hx)
      rcases h with h | ⟨h1, h2⟩
      · left
        cases hc2 : c.2 <;> cases hx2 : x.2 <;>
          simp [hc2, hx2] at h ⊢
      · right
        constructor
        · cases hc2 : c.2 <;> cases hx2 : x.2 <;> simp [hc2, hx2] at h1 ⊢
        · exact OrderDual.toDual_le_toDual.mp h2
    refine ⟨c, g.erase c, ?_, hcg, rfl, ?_, hexp, ?_⟩
    · simp [pickCanonical, hsort]
    · rw [List.length_erase_of_mem hcg]
      have : 0 < g.length := List.length_pos.mpr hne
      omega
    · rintro ⟨x, hx, hxf⟩
      rcases hexp x hx with ⟨h, _⟩ | ⟨h, _⟩
      · exact h
      · rw [h, hxf]

/-- Witness for `c4_canonical_key`: the spec's `run` / `sprint` group —
both untagged, so the longer string `sprint` is canonical and `run` is
the alternate. -/
theorem c4_canonical_key_witness :
    pickCanonical [("run", false), ("sprint", false)] =
      some (("sprint", false), [("run", false)]) := by
  obtain ⟨c, alts, hpick, -, -, -, -, -⟩ :=
    c4_canonical_key [("run", false), ("sprint", false)] (by decide)
  exact rfl

end Convert
